import Mathlib

set_option autoImplicit false

/-
  Verification of compiler/utils.go (gopherjs compiler utilities).

  Go strings and byte slices are modelled as lists of byte values
  (`List Nat`); Go maps used as name registries are modelled as
  association lists with newest-binding-first shadowing semantics.
-/

namespace GopherJS

/-- A Go string / byte slice, as its list of byte values. -/
abbrev Name := List Nat

/-! ### Decimal rendering (the `fmt.Sprintf("%s$%d", name, n)` suffix) -/

/-- Decimal digit rendering, with explicit recursion fuel so that it is
structurally recursive (hence evaluates on concrete inputs). -/
def decDigitsAux : Nat → Nat → Name
  | 0, _ => []
  | fuel + 1, n => if n < 10 then [48 + n] else decDigitsAux fuel (n / 10) ++ [48 + n % 10]

/-- Decimal digit bytes of `n`, most significant first: the bytes that
`fmt.Sprintf("%d", n)` produces. -/
def decDigits (n : Nat) : Name := decDigitsAux (n + 1) n

theorem decDigitsAux_eq_decDigits {n : Nat} : ∀ {f : Nat}, n < f →
    decDigitsAux f n = decDigits n := by
  induction n using Nat.strong_induction_on with
  | _ n ih =>
    intro f hf
    cases f with
    | zero => omega
    | succ k =>
      by_cases hn : n < 10
      · simp [decDigitsAux, decDigits, hn]
      · have hd : n / 10 < n := Nat.div_lt_self (by omega) (by omega)
        show (if n < 10 then [48 + n] else decDigitsAux k (n / 10) ++ [48 + n % 10]) = _
        rw [if_neg hn, ih (n / 10) hd (by omega)]
        show _ = decDigitsAux (n + 1) n
        show _ = (if n < 10 then [48 + n] else decDigitsAux n (n / 10) ++ [48 + n % 10])
        rw [if_neg hn, ih (n / 10) hd (by omega)]

/-- Reading decimal digit bytes back into a number. -/
def decVal (l : Name) : Nat :=
  l.foldl (fun acc d => acc * 10 + (d - 48)) 0

theorem decDigits_ge (n : Nat) (h : 10 ≤ n) :
    decDigits n = decDigits (n / 10) ++ [48 + n % 10] := by
  have hd : n / 10 < n := Nat.div_lt_self (by omega) (by omega)
  show decDigitsAux (n + 1) n = _
  show (if n < 10 then [48 + n] else decDigitsAux n (n / 10) ++ [48 + n % 10]) = _
  rw [if_neg (Nat.not_lt.mpr h), decDigitsAux_eq_decDigits hd]

theorem decDigits_lt (n : Nat) (h : n < 10) : decDigits n = [48 + n] := by
  simp [decDigits, decDigitsAux, h]

theorem decVal_decDigits (n : Nat) : decVal (decDigits n) = n := by
  induction n using Nat.strong_induction_on with
  | _ n ih =>
    by_cases h : n < 10
    · rw [decDigits_lt n h]
      simp [decVal]
    · rw [decDigits_ge n (by omega)]
      have hlt : n / 10 < n := Nat.div_lt_self (by omega) (by omega)
      have hrec := ih (n / 10) hlt
      simp only [decVal, List.foldl_append, List.foldl_cons, List.foldl_nil] at hrec ⊢
      rw [hrec]
      omega

theorem decDigits_inj {m n : Nat} (h : decDigits m = decDigits n) : m = n := by
  have := decVal_decDigits m
  rw [h, decVal_decDigits] at this
  exact this.symm

theorem decDigits_mem_range {n d : Nat} (h : d ∈ decDigits n) : 48 ≤ d ∧ d ≤ 57 := by
  induction n using Nat.strong_induction_on with
  | _ n ih =>
    by_cases hn : n < 10
    · rw [decDigits_lt n hn] at h
      simp at h
      omega
    · rw [decDigits_ge n (by omega)] at h
      rcases List.mem_append.mp h with h1 | h1
      · exact ih (n / 10) (Nat.div_lt_self (by omega) (by omega)) h1
      · simp at h1
        have : n % 10 < 10 := Nat.mod_lt _ (by omega)
        omega

/-! ### Suffixed names: `name` when the prior count is `0`, `name$<n>` otherwise -/

/-- The display name the registry returns for base `b` with prior count `n`:
`b` itself when `n = 0`, and `b$<n>` otherwise (byte 36 is `$`). -/
def mkName (b : Name) (n : Nat) : Name :=
  if n = 0 then b else b ++ 36 :: decDigits n

/-- A byte the sanitizer accepts: `'0' ≤ b ∧ b ≤ 'z'` in the source. -/
def goodByte (b : Nat) : Bool := 48 ≤ b && b ≤ 122

theorem append_cons_inj {sep : Nat} {b1 b2 t1 t2 : Name}
    (h1 : sep ∉ b1) (h2 : sep ∉ b2)
    (h : b1 ++ sep :: t1 = b2 ++ sep :: t2) : b1 = b2 ∧ t1 = t2 := by
  induction b1 generalizing b2 with
  | nil =>
    cases b2 with
    | nil => simpa using h
    | cons y b2' =>
      simp only [List.nil_append, List.cons_append, List.cons.injEq] at h
      exact absurd (by rw [h.1]; exact List.mem_cons_self y b2') h2
  | cons x b1' ih =>
    cases b2 with
    | nil =>
      simp only [List.cons_append, List.nil_append, List.cons.injEq] at h
      exact absurd (by rw [← h.1]; exact List.mem_cons_self x b1') h1
    | cons y b2' =>
      simp only [List.cons_append, List.cons.injEq] at h
      have := ih (fun hm => h1 (List.mem_cons_of_mem x hm))
        (fun hm => h2 (h.1 ▸ List.mem_cons_of_mem y hm)) h.2
      exact ⟨by rw [h.1, this.1], this.2⟩

theorem dollar_not_mem_decDigits (n : Nat) : 36 ∉ decDigits n := by
  intro h
  have := decDigits_mem_range h
  omega

theorem mkName_inj {b1 b2 : Name} {n1 n2 : Nat}
    (h1 : 36 ∉ b1) (h2 : 36 ∉ b2)
    (h : mkName b1 n1 = mkName b2 n2) : b1 = b2 ∧ n1 = n2 := by
  unfold mkName at h
  by_cases e1 : n1 = 0
  · by_cases e2 : n2 = 0
    · rw [if_pos e1, if_pos e2] at h
      exact ⟨h, e1.trans e2.symm⟩
    · rw [if_pos e1, if_neg e2] at h
      exact absurd (h ▸ (List.mem_append.mpr (Or.inr (List.mem_cons_self 36 _)))) h1
  · by_cases e2 : n2 = 0
    · rw [if_neg e1, if_pos e2] at h
      exact absurd (h ▸ (List.mem_append.mpr (Or.inr (List.mem_cons_self 36 _)))) h2
    · rw [if_neg e1, if_neg e2] at h
      have := append_cons_inj h1 h2 h
      exact ⟨this.1, decDigits_inj this.2⟩

/-! ### The name registry (`funcContext.allVars`, `funcContext.localVars`) -/

/-- The mutable naming state of one `funcContext`: `allVars` is the Go map
from base name to prior-allocation count (modelled as an association list
with newest binding first), `localVars` the slice of local display names. -/
structure FuncScope where
  allVars : List (Name × Nat)
  localVars : List Name
deriving DecidableEq, Repr

/-- A fresh function scope: empty registry. -/
def emptyScope : FuncScope := ⟨[], []⟩

/-- Go map read `allVars[name]` (missing key reads as 0). -/
def getCount : List (Name × Nat) → Name → Nat
  | [], _ => 0
  | (k, v) :: r, b => if k = b then v else getCount r b

/-- Go map write `allVars[name] = v`. -/
def setCount (ρ : List (Name × Nat)) (b : Name) (v : Nat) : List (Name × Nat) :=
  (b, v) :: ρ

@[simp] theorem getCount_setCount_same (ρ : List (Name × Nat)) (b : Name) (v : Nat) :
    getCount (setCount ρ b v) b = v := by
  simp [getCount, setCount]

theorem getCount_setCount_ne (ρ : List (Name × Nat)) {b b' : Name} (v : Nat)
    (h : b ≠ b') : getCount (setCount ρ b v) b' = getCount ρ b' := by
  simp [getCount, setCount, h]

/-- If a name has a nonzero count, it appears among the registry's keys. -/
theorem getCount_ne_zero_mem {ρ : List (Name × Nat)} {b : Name}
    (h : getCount ρ b ≠ 0) : b ∈ ρ.map Prod.fst := by
  induction ρ with
  | nil => simp [getCount] at h
  | cons p r ih =>
    obtain ⟨k, v⟩ := p
    by_cases e : k = b
    · simp [e]
    · simp only [getCount, if_neg e] at h
      simp [ih h]

/-! ### The sanitizer: disallowed bytes degrade the base to "nonAsciiName" -/

/-- The fixed placeholder base `"nonAsciiName"`. -/
def nonAsciiName : Name := [110, 111, 110, 65, 115, 99, 105, 105, 78, 97, 109, 101]

/-- The byte scan of `newVariableWithLevel`: any byte outside `['0','z']`
degrades the whole name to `nonAsciiName`. -/
def sanitize (name : Name) : Name :=
  if name.all goodByte then name else nonAsciiName

theorem goodByte_iff (b : Nat) : goodByte b = true ↔ 48 ≤ b ∧ b ≤ 122 := by
  simp [goodByte]

/-- A sanitized base consists only of accepted bytes. -/
theorem sanitize_all_good (name : Name) : (sanitize name).all goodByte := by
  unfold sanitize
  split
  · assumption
  · decide

/-- A sanitized base never contains the byte `'$'` (36). -/
theorem dollar_not_mem_sanitize (name : Name) : 36 ∉ sanitize name := by
  intro h
  have := sanitize_all_good name
  rw [List.all_eq_true] at this
  have := (goodByte_iff 36).mp (this 36 h)
  omega

theorem dollar_not_mem_of_all_good {b : Name} (h : b.all goodByte) : 36 ∉ b := by
  intro hm
  rw [List.all_eq_true] at h
  have := (goodByte_iff 36).mp (h 36 hm)
  omega

/-! ### Minified names: the bijective base-26 counter -/

/-- Bijective base-26 rendering with explicit recursion fuel (structurally
recursive, so it evaluates on concrete inputs). -/
def encB26Aux : Nat → Nat → Nat → Name
  | 0, _, _ => []
  | fuel + 1, offset, j =>
    if j < 26 then [offset + j]
    else encB26Aux fuel offset (j / 26 - 1) ++ [offset + j % 26]

/-- The inner name-building loop of minified mode: digits of the bijective
base-26 numeral of `j`, over the alphabet starting at byte `offset`
(`'a'` for local scope, `'A'` for package scope). -/
def encB26 (offset j : Nat) : Name := encB26Aux (j + 1) offset j

theorem encB26Aux_eq_encB26 {offset j : Nat} : ∀ {f : Nat}, j < f →
    encB26Aux f offset j = encB26 offset j := by
  induction j using Nat.strong_induction_on with
  | _ j ih =>
    intro f hf
    cases f with
    | zero => omega
    | succ k =>
      by_cases hj : j < 26
      · simp [encB26Aux, encB26, hj]
      · have hd1 : 1 ≤ j / 26 := (Nat.one_le_div_iff (by omega)).mpr (by omega)
        have hd2 : j / 26 ≤ j := Nat.div_le_self j 26
        show (if j < 26 then [offset + j]
          else encB26Aux k offset (j / 26 - 1) ++ [offset + j % 26]) = _
        rw [if_neg hj, ih (j / 26 - 1) (by omega) (by omega)]
        show _ = encB26Aux (j + 1) offset j
        show _ = (if j < 26 then [offset + j]
          else encB26Aux j offset (j / 26 - 1) ++ [offset + j % 26])
        rw [if_neg hj, ih (j / 26 - 1) (by omega) (by omega)]

theorem encB26_lt (offset j : Nat) (h : j < 26) : encB26 offset j = [offset + j] := by
  simp [encB26, encB26Aux, h]

theorem encB26_ge (offset j : Nat) (h : 26 ≤ j) :
    encB26 offset j = encB26 offset (j / 26 - 1) ++ [offset + j % 26] := by
  have hd1 : 1 ≤ j / 26 := (Nat.one_le_div_iff (by omega)).mpr (by omega)
  have hd2 : j / 26 ≤ j := Nat.div_le_self j 26
  show encB26Aux (j + 1) offset j = _
  show (if j < 26 then [offset + j]
    else encB26Aux j offset (j / 26 - 1) ++ [offset + j % 26]) = _
  rw [if_neg (Nat.not_lt.mpr h), encB26Aux_eq_encB26 (by omega)]

/-- Folding a bijective base-26 numeral back into its value (plus one). -/
def b26Fold (offset : Nat) (a : Nat) (l : Name) : Nat :=
  l.foldl (fun acc d => acc * 26 + (d - offset) + 1) a

theorem b26Fold_encB26 (offset : Nat) (j : Nat) :
    ∀ a, b26Fold offset a (encB26 offset j) = a * 26 ^ (encB26 offset j).length + j + 1 := by
  induction j using Nat.strong_induction_on with
  | _ j ih =>
    intro a
    by_cases h : j < 26
    · rw [encB26_lt offset j h]
      simp only [b26Fold, List.foldl_cons, List.foldl_nil, List.length_cons,
        List.length_nil, pow_one, zero_add, pow_zero]
      omega
    · rw [encB26_ge offset j (by omega)]
      have h1 : 1 ≤ j / 26 := (Nat.one_le_div_iff (by omega)).mpr (by omega)
      have h2 : j / 26 ≤ j := Nat.div_le_self j 26
      have hrec := ih (j / 26 - 1) (by omega) a
      simp only [b26Fold, List.foldl_append, List.foldl_cons, List.foldl_nil] at hrec ⊢
      rw [hrec]
      simp only [List.length_append, List.length_cons, List.length_nil]
      rw [pow_succ]
      have hone : (j / 26 - 1) + 1 = j / 26 := by omega
      have he : offset + j % 26 - offset = j % 26 := by omega
      rw [he, Nat.add_assoc (a * _), hone, Nat.add_mul, Nat.mul_assoc]
      have := Nat.div_add_mod j 26
      omega

/-- The bijective base-26 encoding is injective. -/
theorem encB26_inj {offset j1 j2 : Nat} (h : encB26 offset j1 = encB26 offset j2) :
    j1 = j2 := by
  have h1 := b26Fold_encB26 offset j1 0
  have h2 := b26Fold_encB26 offset j2 0
  rw [h] at h1
  rw [h1] at h2
  omega

/-- The counter search of minified mode: starting at counter value `i`,
return the first `i' ≥ i` whose name is unreserved (`fuel` bounds the scan;
the allocator always supplies enough fuel, see `findFree_minFuel`). -/
def findFree (ρ : List (Name × Nat)) (offset i fuel : Nat) : Option Nat :=
  match fuel with
  | 0 => none
  | fuel + 1 =>
    if getCount ρ (encB26 offset i) = 0 then some i
    else findFree ρ offset (i + 1) fuel

/-- Some counter value at most the registry size is unreserved (there are
more candidate names than registry entries). -/
theorem exists_free (ρ : List (Name × Nat)) (offset : Nat) :
    ∃ i, i ≤ ρ.length ∧ getCount ρ (encB26 offset i) = 0 := by
  by_contra hc
  push_neg at hc
  have hsub : (Finset.range (ρ.length + 1)).image (encB26 offset) ⊆
      (ρ.map Prod.fst).toFinset := by
    intro nm hnm
    rw [Finset.mem_image] at hnm
    obtain ⟨i, hi, rfl⟩ := hnm
    rw [Finset.mem_range] at hi
    exact List.mem_toFinset.mpr (getCount_ne_zero_mem (hc i (by omega)))
  have hcard1 : ((Finset.range (ρ.length + 1)).image (encB26 offset)).card =
      ρ.length + 1 := by
    rw [Finset.card_image_of_injective _ (fun a b => encB26_inj), Finset.card_range]
  have hcard2 := Finset.card_le_card hsub
  have hcard3 : (ρ.map Prod.fst).toFinset.card ≤ ρ.length := by
    calc (ρ.map Prod.fst).toFinset.card ≤ (ρ.map Prod.fst).length :=
          (ρ.map Prod.fst).toFinset_card_le
      _ = ρ.length := by simp
  omega

theorem findFree_spec (ρ : List (Name × Nat)) (offset : Nat) :
    ∀ fuel i, (∃ k, k < fuel ∧ getCount ρ (encB26 offset (i + k)) = 0) →
    ∃ j, findFree ρ offset i fuel = some j ∧
      getCount ρ (encB26 offset j) = 0 ∧ i ≤ j ∧
      ∀ m, i ≤ m → m < j → getCount ρ (encB26 offset m) ≠ 0 := by
  intro fuel
  induction fuel with
  | zero => intro i ⟨k, hk, _⟩; omega
  | succ fuel ih =>
    intro i ⟨k, hk, hfree⟩
    by_cases h0 : getCount ρ (encB26 offset i) = 0
    · exact ⟨i, by simp [findFree, h0], h0, le_refl i, fun m h1 h2 => absurd h1 (by omega)⟩
    · have hk0 : k ≠ 0 := by
        intro he; rw [he] at hfree; simp at hfree; exact h0 hfree
      obtain ⟨j, hj1, hj2, hj3, hj4⟩ := ih (i + 1)
        ⟨k - 1, by omega, by rw [show i + 1 + (k - 1) = i + k by omega]; exact hfree⟩
      refine ⟨j, by simp [findFree, h0, hj1], hj2, by omega, fun m h1 h2 => ?_⟩
      by_cases he : m = i
      · rw [he]; exact h0
      · exact hj4 m (by omega) h2

/-- The fuel the allocator passes to the search. -/
def minFuel (ρ : List (Name × Nat)) : Nat := ρ.length + 1

/-- With fuel `|ρ| + 1`, the search from 0 finds the least unreserved
counter value. -/
theorem findFree_minFuel (ρ : List (Name × Nat)) (offset : Nat) :
    ∃ j, findFree ρ offset 0 (minFuel ρ) = some j ∧
      getCount ρ (encB26 offset j) = 0 ∧
      ∀ m, m < j → getCount ρ (encB26 offset m) ≠ 0 := by
  obtain ⟨i, hi, hfree⟩ := exists_free ρ offset
  obtain ⟨j, h1, h2, _, h4⟩ := findFree_spec ρ offset (minFuel ρ) 0
    ⟨i, by simp [minFuel]; omega, by simpa using hfree⟩
  exact ⟨j, h1, h2, fun m hm => h4 m (by omega) hm⟩

/-! ### `newVariableWithLevel` -/

/-- `newVariableWithLevel` (and `newVariable`, which passes
`pkgLevel = false`).  The context chain is split into the receiver scope
`self` and its ancestor chain `parents`; `none` models the
`panic("newVariable: empty name")` on an empty name, and the unreachable
fuel exhaustion of the minified counter search. -/
def newVariableWithLevel (minify : Bool) (self : FuncScope) (parents : List FuncScope)
    (name : Name) (pkgLevel : Bool) : Option (Name × FuncScope × List FuncScope) :=
  if name = [] then none
  else
    let sname := sanitize name
    let offset : Nat := if pkgLevel then 65 else 97
    let base? : Option Name :=
      if minify then
        match findFree self.allVars offset 0 (minFuel self.allVars) with
        | some i => some (encB26 offset i)
        | none => none
      else some sname
    match base? with
    | none => none
    | some base =>
      let n := getCount self.allVars base
      let varName := mkName base n
      let self' : FuncScope := { self with allVars := setCount self.allVars base (n + 1) }
      if pkgLevel then
        some (varName, self',
          parents.map (fun s => { s with allVars := setCount s.allVars base (n + 1) }))
      else
        some (varName, { self' with localVars := self'.localVars ++ [varName] }, parents)

/-- Running a sequence of allocation calls, collecting the returned names. -/
def runAllocs (minify pkgLevel : Bool) (self : FuncScope) (parents : List FuncScope) :
    List Name → Option (List Name × FuncScope × List FuncScope)
  | [] => some ([], self, parents)
  | nm :: rest =>
    (newVariableWithLevel minify self parents nm pkgLevel).bind fun r =>
      (runAllocs minify pkgLevel r.2.1 r.2.2 rest).bind fun r2 =>
        some (r.1 :: r2.1, r2.2.1, r2.2.2)

/-! ### Plain-mode allocation: distinctness and the `$<n>` suffix law -/

theorem newVar_plain_local (self : FuncScope) (parents : List FuncScope)
    (nm : Name) (h : nm ≠ []) :
    newVariableWithLevel false self parents nm false =
      some (mkName (sanitize nm) (getCount self.allVars (sanitize nm)),
        ⟨setCount self.allVars (sanitize nm) (getCount self.allVars (sanitize nm) + 1),
         self.localVars ++ [mkName (sanitize nm) (getCount self.allVars (sanitize nm))]⟩,
        parents) := by
  simp [newVariableWithLevel, h]

/-- A display name the registry has already handed out: some accepted base
with an index below that base's current count. -/
def AllocatedIn (ρ : List (Name × Nat)) (o : Name) : Prop :=
  ∃ b n, b.all goodByte ∧ o = mkName b n ∧ n < getCount ρ b

theorem runAllocs_plain_count_mono {names : List Name} :
    ∀ {self : FuncScope} {parents : List FuncScope} {outs s' p'},
    runAllocs false false self parents names = some (outs, s', p') →
    ∀ b, getCount self.allVars b ≤ getCount s'.allVars b := by
  induction names with
  | nil =>
    intro self parents outs s' p' h b
    simp only [runAllocs, Option.some.injEq, Prod.mk.injEq] at h
    rw [h.2.1]
  | cons nm rest ih =>
    intro self parents outs s' p' h b
    rw [runAllocs] at h
    obtain ⟨r1, h1, h⟩ := Option.bind_eq_some.mp h
    obtain ⟨r2, h2, h⟩ := Option.bind_eq_some.mp h
    simp only [Option.some.injEq, Prod.mk.injEq] at h
    by_cases he : nm = []
    · rw [he] at h1; simp [newVariableWithLevel] at h1
    · rw [newVar_plain_local self parents nm he] at h1
      simp only [Option.some.injEq] at h1
      subst h1
      dsimp only at h2
      have hmono := ih h2 b
      dsimp only at hmono
      rw [← h.2.1]
      refine le_trans ?_ hmono
      by_cases hb : sanitize nm = b
      · rw [← hb, getCount_setCount_same]
        omega
      · rw [getCount_setCount_ne _ _ hb]

theorem AllocatedIn_mono {ρ1 ρ2 : List (Name × Nat)}
    (h : ∀ b, getCount ρ1 b ≤ getCount ρ2 b) {o : Name}
    (ha : AllocatedIn ρ1 o) : AllocatedIn ρ2 o := by
  obtain ⟨b, n, h1, h2, h3⟩ := ha
  exact ⟨b, n, h1, h2, lt_of_lt_of_le h3 (h b)⟩

theorem runAllocs_plain_fresh {names : List Name} :
    ∀ {self : FuncScope} {parents : List FuncScope} {outs s' p'},
    runAllocs false false self parents names = some (outs, s', p') →
    outs.Nodup ∧ ∀ o ∈ outs, ¬ AllocatedIn self.allVars o := by
  induction names with
  | nil =>
    intro self parents outs s' p' h
    simp only [runAllocs, Option.some.injEq, Prod.mk.injEq] at h
    simp [← h.1]
  | cons nm rest ih =>
    intro self parents outs s' p' h
    rw [runAllocs] at h
    obtain ⟨r1, h1, h⟩ := Option.bind_eq_some.mp h
    obtain ⟨r2, h2, h⟩ := Option.bind_eq_some.mp h
    simp only [Option.some.injEq, Prod.mk.injEq] at h
    by_cases he : nm = []
    · rw [he] at h1; simp [newVariableWithLevel] at h1
    · rw [newVar_plain_local self parents nm he] at h1
      simp only [Option.some.injEq] at h1
      subst h1
      dsimp only at h2 h
      set b := sanitize nm with hbdef
      set n := getCount self.allVars b with hndef
      obtain ⟨hnodup, hfresh⟩ := ih h2
      dsimp only at hfresh
      have hn1 : getCount (setCount self.allVars b (n + 1)) b = n + 1 :=
        getCount_setCount_same _ _ _
      have hmono1 : ∀ b', getCount self.allVars b' ≤
          getCount (setCount self.allVars b (n + 1)) b' := by
        intro b'
        by_cases hb : b = b'
        · rw [← hb, getCount_setCount_same]; omega
        · rw [getCount_setCount_ne _ _ hb]
      rw [← h.1]
      constructor
      · rw [List.nodup_cons]
        refine ⟨fun hmem => hfresh _ hmem ⟨b, n, hbdef ▸ sanitize_all_good nm, rfl, ?_⟩,
          hnodup⟩
        rw [hn1]; omega
      · intro o hmem halloc
        rcases List.mem_cons.mp hmem with rfl | hmem'
        · obtain ⟨b', n', hg', ho', hn'⟩ := halloc
          have hinj := mkName_inj (hbdef ▸ dollar_not_mem_sanitize nm)
            (dollar_not_mem_of_all_good hg') ho'
          rw [← hinj.1, ← hinj.2] at hn'
          omega
        · exact hfresh o hmem' (AllocatedIn_mono hmono1 halloc)

theorem runAllocs_length {minify pkgLevel : Bool} {names : List Name} :
    ∀ {self : FuncScope} {parents : List FuncScope} {outs s' p'},
    runAllocs minify pkgLevel self parents names = some (outs, s', p') →
    outs.length = names.length := by
  induction names with
  | nil =>
    intro self parents outs s' p' h
    simp [runAllocs] at h
    simp [h.1]
  | cons nm rest ih =>
    intro self parents outs s' p' h
    rw [runAllocs] at h
    obtain ⟨r1, h1, h⟩ := Option.bind_eq_some.mp h
    obtain ⟨r2, h2, h⟩ := Option.bind_eq_some.mp h
    simp only [Option.some.injEq, Prod.mk.injEq] at h
    rw [← h.1]
    simp [ih h2]

theorem runAllocs_plain_get {names : List Name} :
    ∀ {self : FuncScope} {parents : List FuncScope} {outs s' p'} (j : Nat),
    runAllocs false false self parents names = some (outs, s', p') →
    j < names.length →
    outs.getD j [] = mkName (sanitize (names.getD j []))
      ((names.take j).countP (fun nm => sanitize nm == sanitize (names.getD j [])) +
        getCount self.allVars (sanitize (names.getD j []))) := by
  induction names with
  | nil => intro self parents outs s' p' j _ hj; simp at hj
  | cons nm rest ih =>
    intro self parents outs s' p' j h hj
    rw [runAllocs] at h
    obtain ⟨r1, h1, h⟩ := Option.bind_eq_some.mp h
    obtain ⟨r2, h2, h⟩ := Option.bind_eq_some.mp h
    simp only [Option.some.injEq, Prod.mk.injEq] at h
    by_cases he : nm = []
    · rw [he] at h1; simp [newVariableWithLevel] at h1
    · rw [newVar_plain_local self parents nm he] at h1
      simp only [Option.some.injEq] at h1
      subst h1
      dsimp only at h2 h
      rw [← h.1]
      cases j with
      | zero => simp
      | succ j =>
        simp only [List.getD_cons_succ, List.take_succ_cons, List.countP_cons]
        have hj' : j < rest.length := by simpa using hj
        have hrec := ih j h2 hj'
        rw [hrec]
        have hsc : getCount (setCount self.allVars (sanitize nm)
              (getCount self.allVars (sanitize nm) + 1)) (sanitize (rest.getD j [])) =
            getCount self.allVars (sanitize (rest.getD j [])) +
            (if (sanitize nm == sanitize (rest.getD j [])) = true then 1 else 0) := by
          by_cases hb : sanitize nm = sanitize (rest.getD j [])
          · rw [← hb, getCount_setCount_same]; simp
          · rw [getCount_setCount_ne _ _ hb,
              show (sanitize nm == sanitize (rest.getD j [])) = false from
                beq_eq_false_iff_ne.mpr hb]
            simp
        rw [hsc]
        congr 1
        omega

/-- C1: in plain (non-minified) mode, any sequence of `N` allocation calls on
one fresh function-scope registry returns pairwise distinct names; the output
sequence is a deterministic function of the input sequence; the `j`-th
allocation returns `mkName b k` where `b` is the sanitized base and `k` the
number of prior allocations of that base (so the first allocation of base
`"i"` returns `"i"`, the second `"i$1"`); and any nonempty name containing a
byte outside `['0','z']` degrades to the fixed base `"nonAsciiName"`. -/
theorem newVariableWithLevel_plain_distinct_deterministic :
    (∀ names outs s p, runAllocs false false emptyScope [] names = some (outs, s, p) →
      outs.Nodup)
  ∧ (∀ names1 names2, names1 = names2 →
      runAllocs false false emptyScope [] names1 = runAllocs false false emptyScope [] names2)
  ∧ (∀ names outs s p j, runAllocs false false emptyScope [] names = some (outs, s, p) →
      j < names.length →
      outs.getD j [] = mkName (sanitize (names.getD j []))
        ((names.take j).countP (fun nm => sanitize nm == sanitize (names.getD j []))))
  ∧ ((runAllocs false false emptyScope [] [[105], [105]]).map Prod.fst =
      some [[105], [105, 36, 49]])
  ∧ (∀ nm, nm ≠ [] → (∃ x ∈ nm, x < 48 ∨ 122 < x) →
      (newVariableWithLevel false emptyScope [] nm false).map (fun r => r.fst) =
        some nonAsciiName) := by
  refine ⟨?_, ?_, ?_, ?_, ?_⟩
  · intro names outs s p h
    exact (runAllocs_plain_fresh h).1
  · intro names1 names2 h
    rw [h]
  · intro names outs s p j h hj
    have hg := runAllocs_plain_get j h hj
    simpa [emptyScope, getCount] using hg
  · decide
  · intro nm hne ⟨x, hx, hbad⟩
    have hs : sanitize nm = nonAsciiName := by
      unfold sanitize
      rw [if_neg]
      intro hall
      rw [List.all_eq_true] at hall
      have := (goodByte_iff x).mp (hall x hx)
      omega
    rw [newVar_plain_local emptyScope [] nm hne, hs]
    simp [mkName, emptyScope, getCount]

/-- Witness for `newVariableWithLevel_plain_distinct_deterministic` at
concrete inputs. -/
theorem newVariableWithLevel_plain_distinct_deterministic_witness :
    ([[105], [120], [105, 36, 49]] : List Name).Nodup ∧
    (newVariableWithLevel false emptyScope [] [206, 187] false).map (fun r => r.fst) =
      some nonAsciiName := by
  constructor
  · exact newVariableWithLevel_plain_distinct_deterministic.1
      [[105], [120], [105]]
      [[105], [120], [105, 36, 49]]
      ⟨[([105], 2), ([120], 1), ([105], 1)], [[105], [120], [105, 36, 49]]⟩
      [] (by decide)
  · exact newVariableWithLevel_plain_distinct_deterministic.2.2.2.2
      [206, 187] (by decide) ⟨206, by decide⟩

/-! ### Minified-mode allocation: counter order and ancestor reservation -/

theorem newVar_min_local (self : FuncScope) (parents : List FuncScope)
    (nm : Name) (h : nm ≠ []) :
    ∃ i, getCount self.allVars (encB26 97 i) = 0 ∧
      (∀ m, m < i → getCount self.allVars (encB26 97 m) ≠ 0) ∧
      newVariableWithLevel true self parents nm false =
        some (encB26 97 i,
          ⟨setCount self.allVars (encB26 97 i) 1,
           self.localVars ++ [encB26 97 i]⟩, parents) := by
  obtain ⟨j, h1, h2, h3⟩ := findFree_minFuel self.allVars 97
  refine ⟨j, h2, h3, ?_⟩
  simp [newVariableWithLevel, h, h1, h2, mkName]

theorem newVar_min_pkg (self : FuncScope) (parents : List FuncScope)
    (nm : Name) (h : nm ≠ []) :
    ∃ i, getCount self.allVars (encB26 65 i) = 0 ∧
      (∀ m, m < i → getCount self.allVars (encB26 65 m) ≠ 0) ∧
      newVariableWithLevel true self parents nm true =
        some (encB26 65 i,
          ⟨setCount self.allVars (encB26 65 i) 1, self.localVars⟩,
          parents.map (fun s =>
            ⟨setCount s.allVars (encB26 65 i) 1, s.localVars⟩)) := by
  obtain ⟨j, h1, h2, h3⟩ := findFree_minFuel self.allVars 65
  refine ⟨j, h2, h3, ?_⟩
  simp [newVariableWithLevel, h, h1, h2, mkName]

theorem runAllocs_min_chain {names : List Name} :
    ∀ {self : FuncScope} {parents : List FuncScope} {outs s' p'},
    runAllocs true false self parents names = some (outs, s', p') →
    ∃ idxs : List Nat, outs = idxs.map (encB26 97) ∧
      List.Chain' (· < ·) idxs ∧
      ∀ i ∈ idxs, getCount self.allVars (encB26 97 i) = 0 := by
  induction names with
  | nil =>
    intro self parents outs s' p' h
    simp only [runAllocs, Option.some.injEq, Prod.mk.injEq] at h
    exact ⟨[], by simp [← h.1], by simp, by simp⟩
  | cons nm rest ih =>
    intro self parents outs s' p' h
    rw [runAllocs] at h
    obtain ⟨r1, h1, h⟩ := Option.bind_eq_some.mp h
    obtain ⟨r2, h2, h⟩ := Option.bind_eq_some.mp h
    simp only [Option.some.injEq, Prod.mk.injEq] at h
    by_cases he : nm = []
    · rw [he] at h1; simp [newVariableWithLevel] at h1
    · obtain ⟨j, hfree, hleast, heq⟩ := newVar_min_local self parents nm he
      rw [heq] at h1
      simp only [Option.some.injEq] at h1
      subst h1
      dsimp only at h2 h
      obtain ⟨idxs, hmap, hchain, hstart⟩ := ih h2
      dsimp only at hstart
      have htrans : ∀ i ∈ idxs, getCount self.allVars (encB26 97 i) = 0 ∧ j < i := by
        intro i hi
        have h0 := hstart i hi
        have hne : encB26 97 i ≠ encB26 97 j := by
          intro he2
          rw [he2, getCount_setCount_same] at h0
          omega
        rw [getCount_setCount_ne _ _ (fun he2 => hne he2.symm)] at h0
        refine ⟨h0, ?_⟩
        have hij : i ≠ j := fun he2 => hne (he2 ▸ rfl)
        by_contra hlt
        exact hleast i (by omega) h0
      refine ⟨j :: idxs, ?_, ?_, ?_⟩
      · rw [← h.1, hmap]; rfl
      · rw [List.chain'_cons']
        refine ⟨fun b hb => (htrans b (List.mem_of_mem_head? hb)).2, hchain⟩
      · intro i hi
        rcases List.mem_cons.mp hi with rfl | hi'
        · exact hfree
        · exact (htrans i hi').1

/-- C2: in minified mode, a run of allocations in one scope returns names
that are the bijective base-26 encodings of a strictly increasing sequence
of counter values (hence pairwise distinct), each step choosing the least
counter value whose name is unreserved (skipping reserved ones); a
package-level allocation reserves the chosen uppercase name, with its
updated count, in the receiver and in every ancestor registry of the parent
chain; and a minified allocation never returns a name that is already
reserved in the receiving registry. -/
theorem newVariableWithLevel_minified_counter_order :
    (∀ names (self : FuncScope) parents outs s' p',
      runAllocs true false self parents names = some (outs, s', p') →
      outs.Nodup ∧ ∃ idxs : List Nat, outs = idxs.map (encB26 97) ∧
        List.Chain' (· < ·) idxs ∧
        ∀ i ∈ idxs, getCount self.allVars (encB26 97 i) = 0)
  ∧ (∀ (self : FuncScope) parents nm, nm ≠ [] →
      ∃ i, getCount self.allVars (encB26 97 i) = 0 ∧
        (∀ m, m < i → getCount self.allVars (encB26 97 m) ≠ 0) ∧
        (newVariableWithLevel true self parents nm false).map (fun r => r.fst) =
          some (encB26 97 i))
  ∧ (∀ (self : FuncScope) parents nm, nm ≠ [] →
      ∃ i self' parents',
        newVariableWithLevel true self parents nm true =
          some (encB26 65 i, self', parents') ∧
        getCount self'.allVars (encB26 65 i) = 1 ∧
        parents'.length = parents.length ∧
        ∀ s2 ∈ parents', getCount s2.allVars (encB26 65 i) = 1)
  ∧ (∀ (self : FuncScope) parents nm lvl v s' p',
      newVariableWithLevel true self parents nm lvl = some (v, s', p') →
      getCount self.allVars v = 0) := by
  refine ⟨?_, ?_, ?_, ?_⟩
  · intro names self parents outs s' p' h
    obtain ⟨idxs, hmap, hchain, hfree⟩ := runAllocs_min_chain h
    refine ⟨?_, idxs, hmap, hchain, hfree⟩
    rw [hmap]
    refine List.Nodup.map (fun a b hab => encB26_inj hab) ?_
    have hpw := List.chain'_iff_pairwise.mp hchain
    exact hpw.imp (fun hab => Nat.ne_of_lt hab)
  · intro self parents nm he
    obtain ⟨i, h1, h2, h3⟩ := newVar_min_local self parents nm he
    exact ⟨i, h1, h2, by rw [h3]; rfl⟩
  · intro self parents nm he
    obtain ⟨i, h1, h2, h3⟩ := newVar_min_pkg self parents nm he
    refine ⟨i, _, _, h3, ?_, by simp, ?_⟩
    · exact getCount_setCount_same _ _ _
    · intro s2 hs2
      rw [List.mem_map] at hs2
      obtain ⟨s0, _, rfl⟩ := hs2
      exact getCount_setCount_same _ _ _
  · intro self parents nm lvl v s' p' h
    by_cases he : nm = []
    · rw [he] at h; simp [newVariableWithLevel] at h
    · cases lvl with
      | false =>
        obtain ⟨i, h1, _, h3⟩ := newVar_min_local self parents nm he
        rw [h3] at h
        simp only [Option.some.injEq, Prod.mk.injEq] at h
        rw [← h.1]; exact h1
      | true =>
        obtain ⟨i, h1, _, h3⟩ := newVar_min_pkg self parents nm he
        rw [h3] at h
        simp only [Option.some.injEq, Prod.mk.injEq] at h
        rw [← h.1]; exact h1

/-- Witness for `newVariableWithLevel_minified_counter_order` at concrete
inputs: three minified allocations in a scope that already reserves `"b"`
return `"a"`, `"c"`, `"d"` (skipping the reserved counter value). -/
theorem newVariableWithLevel_minified_counter_order_witness :
    ([[97], [99], [100]] : List Name).Nodup := by
  exact (newVariableWithLevel_minified_counter_order.1
    [[120], [121], [122]] ⟨[([98], 1)], []⟩ [] [[97], [99], [100]]
    ⟨[([100], 1), ([99], 1), ([97], 1), ([98], 1)],
      [[97], [99], [100]]⟩ [] (by decide)).1

/-! ### Emission core: `Write`, `SetPos`, `writePos`, `CatchOutput` -/

/-- The emission state of a `funcContext`: the output buffer, the pending
debug position (`posAvailable` / `pos`), and the unit's indentation counter. -/
structure EmitState where
  output : List Nat
  posAvailable : Bool
  pos : Nat
  indentation : Int
deriving DecidableEq, Repr

/-- The 4 bytes `binary.Write(c, binary.BigEndian, uint32(pos))` emits. -/
def be32 (p : Nat) : List Nat :=
  [p / 2 ^ 24 % 256, p / 2 ^ 16 % 256, p / 2 ^ 8 % 256, p % 256]

/-- `writePos`: flush a pending position as the sentinel byte `'\b'` (8)
followed by the big-endian 4-byte offset (the nested `Write` calls see
`posAvailable = false`, so they only append). -/
def writePos (c : EmitState) : EmitState :=
  if c.posAvailable then
    { c with posAvailable := false, output := c.output ++ 8 :: be32 c.pos }
  else c

/-- `Write`: flush any pending position, then append the bytes. -/
def Write (c : EmitState) (b : List Nat) : EmitState :=
  let c' := writePos c
  { c' with output := c'.output ++ b }

/-- `SetPos`: record a pending position. -/
def SetPos (c : EmitState) (p : Nat) : EmitState :=
  { c with posAvailable := true, pos := p }

/-- `CatchOutput`: redirect emission into a private buffer for the extent of
`f`, flush any pending position at the boundary, and return the captured
bytes together with the restored state. -/
def CatchOutput (c : EmitState) (indent : Int) (f : EmitState → EmitState) :
    List Nat × EmitState :=
  let c1 : EmitState := { c with output := [], indentation := c.indentation + indent }
  let c2 := f c1
  let c3 := writePos c2
  (c3.output, { c3 with output := c.output, indentation := c3.indentation - indent })

/-- C9: after `SetPos p`, the next `Write` emits exactly one debug marker —
the sentinel byte 8 followed by the 4-byte big-endian offset — immediately
before the bytes it annotates; every `Write` leaves no pending position, and
a `Write` with no pending position appends only its own bytes (so
consecutive position-less writes coalesce under one marker and a recorded
position is never written twice); a pending position left by the callback of
`CatchOutput` is flushed at the capture boundary. -/
theorem writePos_marker_flush_once :
    (∀ (c : EmitState) (p : Nat) (b : List Nat),
      (Write (SetPos c p) b).output = c.output ++ (8 :: be32 p) ++ b ∧
      (Write (SetPos c p) b).posAvailable = false)
  ∧ (∀ (c : EmitState) (b : List Nat), c.posAvailable = false →
      (Write c b).output = c.output ++ b)
  ∧ (∀ (c : EmitState) (b b2 : List Nat) (p : Nat),
      (Write (Write (SetPos c p) b) b2).output =
        c.output ++ (8 :: be32 p) ++ b ++ b2)
  ∧ (∀ (c : EmitState) (indent : Int) (f : EmitState → EmitState),
      let c2 := f { c with output := [], indentation := c.indentation + indent }
      (CatchOutput c indent f).1 =
        (if c2.posAvailable then c2.output ++ 8 :: be32 c2.pos else c2.output) ∧
      (CatchOutput c indent f).2.output = c.output) := by
  refine ⟨?_, ?_, ?_, ?_⟩
  · intro c p b
    simp [Write, SetPos, writePos]
  · intro c b h
    simp [Write, writePos, h]
  · intro c b b2 p
    simp [Write, SetPos, writePos]
  · intro c indent f
    constructor
    · show (writePos (f _)).output = _
      unfold writePos
      split <;> simp_all
    · rfl

/-- Witness for `writePos_marker_flush_once` at a concrete state. -/
theorem writePos_marker_flush_once_witness :
    (Write ⟨[7], false, 0, 0⟩ [1, 2]).output = [7] ++ [1, 2] :=
  writePos_marker_flush_once.2.1 ⟨[7], false, 0, 0⟩ [1, 2] rfl

/-! ### `rangeCheck`: guarded index-access pattern generation -/

/-- `rangeCheck`: wrap an access `pattern` in a bounds guard unless the index
is compile-time constant and the container a fixed-length array. -/
def rangeCheck (pattern : String) (constantIndex array : Bool) : String :=
  if constantIndex && array then pattern
  else
    let lengthProp := if array then "length" else "$length"
    let check := "%2f >= %1e." ++ lengthProp
    let check := if !constantIndex then "(%2f < 0 || " ++ check ++ ")" else check
    "(" ++ check ++ " ? $throwRuntimeError(\"index out of range\") : " ++ pattern ++ ")"

/-- C5: `rangeCheck` returns the bare access pattern exactly for a constant
index into a fixed-length array; in every other combination it wraps the
pattern in a conditional raising `$throwRuntimeError("index out of range")`,
using length accessor `length` for fixed arrays and `$length` for
dynamic-length containers, with the negative-index test present exactly when
the index is not compile-time constant — in particular, for a non-constant
index into a dynamic-length container the guard tests `< 0` or
`>= $length`. -/
theorem rangeCheck_guard_cases :
    (∀ p : String, rangeCheck p true true = p)
  ∧ (∀ p : String, rangeCheck p false false =
      "((%2f < 0 || %2f >= %1e.$length) ? " ++
        "$throwRuntimeError(\"index out of range\") : " ++ p ++ ")")
  ∧ (∀ p : String, rangeCheck p false true =
      "((%2f < 0 || %2f >= %1e.length) ? " ++
        "$throwRuntimeError(\"index out of range\") : " ++ p ++ ")")
  ∧ (∀ p : String, rangeCheck p true false =
      "(%2f >= %1e.$length ? " ++
        "$throwRuntimeError(\"index out of range\") : " ++ p ++ ")")
  ∧ (∀ (p : String) (ci ar : Bool), ¬(ci = true ∧ ar = true) →
      rangeCheck p ci ar ≠ p) := by
  refine ⟨fun p => rfl, fun p => rfl, fun p => rfl, fun p => rfl, ?_⟩
  intro p ci ar hno heq
  cases ci with
  | true =>
    cases ar with
    | true => exact hno ⟨rfl, rfl⟩
    | false =>
      have hform : rangeCheck p true false =
          "(" ++ ("%2f >= %1e." ++ "$length") ++
            " ? $throwRuntimeError(\"index out of range\") : " ++ p ++ ")" := rfl
      rw [hform] at heq
      have hl := congrArg String.length heq
      simp only [String.length_append] at hl
      have h2 : (")" : String).length = 1 := by decide
      omega
  | false =>
    cases ar with
    | true =>
      have hform : rangeCheck p false true =
          "(" ++ ("(%2f < 0 || " ++ ("%2f >= %1e." ++ "length") ++ ")") ++
            " ? $throwRuntimeError(\"index out of range\") : " ++ p ++ ")" := rfl
      rw [hform] at heq
      have hl := congrArg String.length heq
      simp only [String.length_append] at hl
      have h2 : (")" : String).length = 1 := by decide
      omega
    | false =>
      have hform : rangeCheck p false false =
          "(" ++ ("(%2f < 0 || " ++ ("%2f >= %1e." ++ "$length") ++ ")") ++
            " ? $throwRuntimeError(\"index out of range\") : " ++ p ++ ")" := rfl
      rw [hform] at heq
      have hl := congrArg String.length heq
      simp only [String.length_append] at hl
      have h2 : (")" : String).length = 1 := by decide
      omega

/-- Witness for `rangeCheck_guard_cases` at a concrete pattern. -/
theorem rangeCheck_guard_cases_witness :
    rangeCheck "a[i]" false false =
      "((%2f < 0 || %2f >= %1e.$length) ? " ++
        "$throwRuntimeError(\"index out of range\") : " ++ "a[i]" ++ ")" :=
  rangeCheck_guard_cases.2.1 "a[i]"

/-! ### The minifier: `needsSpace` and `removeWhitespace` -/

/-- `needsSpace`: identifier-like bytes (letter, digit, underscore, `$`). -/
def needsSpace (c : Nat) : Bool :=
  (97 ≤ c && c ≤ 122) || (65 ≤ c && c ≤ 90) || (48 ≤ c && c ≤ 57) || c == 95 || c == 36

/-- Whether a byte is one of the whitespace cases `' '`, `'\t'`, `'\n'`. -/
def isWS (x : Nat) : Bool := x == 32 || x == 9 || x == 10

/-- The quoted-string scan of `removeWhitespace` (its `bytes.IndexAny` loop,
restated byte by byte): collect the literal's contents, copying
backslash-escape pairs verbatim, up to the first unescaped closing quote;
`none` models the panics on a missing closing quote (`IndexAny` returning
`-1`) and on a trailing backslash (`b[:2]` past the end). -/
def strScan : List Nat → Option (List Nat × List Nat)
  | [] => none
  | c :: r =>
    if c = 34 then some ([], r)
    else if c = 92 then
      match r with
      | [] => none
      | d :: r2 => (strScan r2).map fun pr => (92 :: d :: pr.1, pr.2)
    else (strScan r).map fun pr => (c :: pr.1, pr.2)

/-- The block-comment scan (`bytes.Index(b[2:], "*/")`): the remainder after
the first `*/` (bytes 42, 47), or `none` if there is none. -/
def cmtScan : List Nat → Option (List Nat)
  | [] => none
  | x :: r => if x = 42 ∧ r.head? = some 47 then some r.tail else cmtScan r

theorem strScan_nil : strScan [] = none := rfl

theorem strScan_quote (r : List Nat) : strScan (34 :: r) = some ([], r) := by
  cases r <;> rfl

theorem strScan_esc (d : Nat) (r2 : List Nat) :
    strScan (92 :: d :: r2) = (strScan r2).map fun pr => (92 :: d :: pr.1, pr.2) := rfl

theorem strScan_esc_end : strScan [92] = none := rfl

theorem strScan_other {x : Nat} (r : List Nat) (hx : x ≠ 34) (hb : x ≠ 92) :
    strScan (x :: r) = (strScan r).map fun pr => (x :: pr.1, pr.2) := by
  cases r with
  | nil => simp [strScan, hx, hb]
  | cons d r2 => simp [strScan, hx, hb]

theorem strScan_decomp_aux : ∀ (n : Nat) (l : List Nat), l.length ≤ n →
    ∀ c rem, strScan l = some (c, rem) → l = c ++ 34 :: rem := by
  intro n
  induction n with
  | zero =>
    intro l hl c rem hs
    cases l with
    | nil => simp [strScan_nil] at hs
    | cons x r => simp at hl
  | succ k ih =>
    intro l hl c rem hs
    cases l with
    | nil => simp [strScan_nil] at hs
    | cons x r =>
      by_cases hx : x = 34
      · subst hx
        rw [strScan_quote] at hs
        simp only [Option.some.injEq, Prod.mk.injEq] at hs
        rw [← hs.1, ← hs.2]
        rfl
      · by_cases hb : x = 92
        · subst hb
          cases r with
          | nil => simp [strScan_esc_end] at hs
          | cons d r2 =>
            rw [strScan_esc] at hs
            rw [Option.map_eq_some'] at hs
            obtain ⟨pr, hpr, heq⟩ := hs
            simp only [Prod.mk.injEq] at heq
            have hlen : r2.length ≤ k := by simp at hl; omega
            have hd := ih r2 hlen pr.1 pr.2 (by rw [hpr])
            rw [← heq.1, ← heq.2, hd]
            rfl
        · rw [strScan_other r hx hb] at hs
          rw [Option.map_eq_some'] at hs
          obtain ⟨pr, hpr, heq⟩ := hs
          simp only [Prod.mk.injEq] at heq
          have hlen : r.length ≤ k := by simp at hl; omega
          have hd := ih r hlen pr.1 pr.2 (by rw [hpr])
          rw [← heq.1, ← heq.2, hd]
          rfl

theorem strScan_decomp {l c rem : List Nat} (h : strScan l = some (c, rem)) :
    l = c ++ 34 :: rem :=
  strScan_decomp_aux l.length l (le_refl _) c rem h

theorem strScan_rem_lt {l c rem : List Nat} (h : strScan l = some (c, rem)) :
    rem.length < l.length := by
  have hd := strScan_decomp h
  rw [hd]
  simp
  omega

theorem cmtScan_nil : cmtScan [] = none := rfl

theorem cmtScan_one (x : Nat) : cmtScan [x] = none := by
  simp [cmtScan]

theorem cmtScan_close (r : List Nat) : cmtScan (42 :: 47 :: r) = some r := by
  simp [cmtScan]

theorem cmtScan_step {x y : Nat} (r2 : List Nat) (h : ¬(x = 42 ∧ y = 47)) :
    cmtScan (x :: y :: r2) = cmtScan (y :: r2) := by
  simp only [cmtScan, List.head?_cons, Option.some.injEq, List.tail_cons]
  rw [if_neg h]

theorem cmtScan_rem_lt_aux : ∀ (n : Nat) (l : List Nat), l.length ≤ n →
    ∀ r, cmtScan l = some r → r.length < l.length := by
  intro n
  induction n with
  | zero =>
    intro l hl r h
    cases l with
    | nil => simp [cmtScan_nil] at h
    | cons x t => simp at hl
  | succ k ih =>
    intro l hl r h
    cases l with
    | nil => simp [cmtScan_nil] at h
    | cons x t =>
      cases t with
      | nil => simp [cmtScan_one] at h
      | cons y t2 =>
        by_cases hc : x = 42 ∧ y = 47
        · obtain ⟨rfl, rfl⟩ := hc
          rw [cmtScan_close] at h
          simp only [Option.some.injEq] at h
          rw [← h]
          simp
          omega
        · rw [cmtScan_step t2 hc] at h
          have := ih (y :: t2) (by simp at hl ⊢; omega) r h
          simp only [List.length_cons] at this ⊢
          omega

theorem cmtScan_rem_lt {l r : List Nat} (h : cmtScan l = some r) :
    r.length < l.length :=
  cmtScan_rem_lt_aux l.length l (le_refl _) r h

/-- The single-pass scan of `removeWhitespace`, with explicit recursion fuel
(structurally recursive, so it evaluates on concrete inputs; the wrapper
`rmw` below always supplies enough fuel).  `previous` is the last byte
appended through the default path (`var previous byte`, initially 0);
`none` models the out-of-bounds slice panics:
`b[:5]` on a short marker, the `b[1]` neighbor read after a trailing
whitespace byte or `'/'`, `bytes.IndexAny` returning -1 inside a string
literal, a trailing backslash escape, and `b[3:]` on an unclosed `/*` with
nothing after it. -/
def rmwAux : Nat → Nat → List Nat → Option (List Nat)
  | 0, _, _ => none
  | fuel + 1, previous, b =>
    match b with
    | [] => some []
    | x :: rest =>
      if x = 8 then
        if 4 ≤ rest.length then
          (rmwAux fuel previous (rest.drop 4)).map fun o => 8 :: (rest.take 4 ++ o)
        else none
      else if isWS x then
        match rest.head? with
        | none => none
        | some y =>
          if (needsSpace previous = false ∨ needsSpace y = false) ∧
              ¬(previous = 45 ∧ y = 45) then
            rmwAux fuel previous rest
          else (rmwAux fuel x rest).map fun o => x :: o
      else if x = 34 then
        match strScan rest with
        | none => none
        | some (content, rem) =>
          (rmwAux fuel 34 rem).map fun o => 34 :: (content ++ 34 :: o)
      else if x = 47 then
        match rest.head? with
        | none => none
        | some y =>
          if y = 42 then
            match cmtScan rest.tail with
            | some r2 => rmwAux fuel previous r2
            | none =>
              if rest.tail.isEmpty then none
              else rmwAux fuel previous rest.tail.tail
          else (rmwAux fuel 47 rest).map fun o => 47 :: o
      else (rmwAux fuel x rest).map fun o => x :: o

/-- The `minify` scan loop of `removeWhitespace`, on remaining input `b`
with last default-appended byte `previous`. -/
def rmw (previous : Nat) (b : List Nat) : Option (List Nat) :=
  rmwAux (b.length + 1) previous b

/-- `removeWhitespace` (partial: `none` models an out-of-bounds panic). -/
def removeWhitespace (b : List Nat) (minify : Bool) : Option (List Nat) :=
  if minify then rmw 0 b else some b

theorem rmwAux_fuel_invariant : ∀ (n : Nat) (b : List Nat), b.length ≤ n →
    ∀ f1 f2 prev, b.length < f1 → b.length < f2 →
    rmwAux f1 prev b = rmwAux f2 prev b := by
  intro n
  induction n with
  | zero =>
    intro b hb f1 f2 prev h1 h2
    have hnil : b = [] := List.eq_nil_of_length_eq_zero (by omega)
    subst hnil
    cases f1 with
    | zero => omega
    | succ g1 =>
      cases f2 with
      | zero => omega
      | succ g2 => rfl
  | succ n ih =>
    intro b hb f1 f2 prev h1 h2
    cases f1 with
    | zero => omega
    | succ g1 =>
      cases f2 with
      | zero => omega
      | succ g2 =>
        cases b with
        | nil => rfl
        | cons x rest =>
          have hrest : rest.length ≤ n := by simp at hb; omega
          have hg1 : rest.length < g1 := by simp at h1; omega
          have hg2 : rest.length < g2 := by simp at h2; omega
          simp only [rmwAux]
          by_cases hx8 : x = 8
          · simp only [if_pos hx8]
            by_cases h4 : 4 ≤ rest.length
            · simp only [if_pos h4]
              rw [ih (rest.drop 4) (by simp; omega) g1 g2 prev
                (by simp; omega) (by simp; omega)]
            · simp only [if_neg h4]
          · simp only [if_neg hx8]
            by_cases hws : isWS x = true
            · simp only [if_pos hws]
              cases hh : rest.head? with
              | none => rfl
              | some y =>
                dsimp only
                by_cases hcond : (needsSpace prev = false ∨ needsSpace y = false) ∧
                    ¬(prev = 45 ∧ y = 45)
                · simp only [if_pos hcond]
                  exact ih rest hrest g1 g2 prev hg1 hg2
                · simp only [if_neg hcond]
                  rw [ih rest hrest g1 g2 x hg1 hg2]
            · simp only [if_neg hws]
              by_cases h34 : x = 34
              · simp only [if_pos h34]
                cases hscan : strScan rest with
                | none => rfl
                | some pr =>
                  obtain ⟨content, rem⟩ := pr
                  dsimp only
                  have hrem := strScan_rem_lt hscan
                  rw [ih rem (by omega) g1 g2 34 (by omega) (by omega)]
              · simp only [if_neg h34]
                by_cases h47 : x = 47
                · simp only [if_pos h47]
                  cases hh : rest.head? with
                  | none => rfl
                  | some y =>
                    dsimp only
                    by_cases hy : y = 42
                    · simp only [if_pos hy]
                      cases hcmt : cmtScan rest.tail with
                      | some r2 =>
                        dsimp only
                        have hlt := cmtScan_rem_lt hcmt
                        have htl : rest.tail.length ≤ rest.length := by
                          rw [List.length_tail]; omega
                        rw [ih r2 (by omega) g1 g2 prev (by omega) (by omega)]
                      | none =>
                        dsimp only
                        by_cases hemp : rest.tail.isEmpty = true
                        · simp only [if_pos hemp]
                        · simp only [if_neg hemp]
                          have htl : rest.tail.length ≤ rest.length := by
                            rw [List.length_tail]; omega
                          have htl2 : rest.tail.tail.length ≤ rest.tail.length := by
                            rw [List.length_tail]; omega
                          rw [ih rest.tail.tail (by omega) g1 g2 prev
                            (by omega) (by omega)]
                    · simp only [if_neg hy]
                      rw [ih rest hrest g1 g2 47 hg1 hg2]
                · simp only [if_neg h47]
                  rw [ih rest hrest g1 g2 x hg1 hg2]

theorem rmwAux_eq_rmw {b : List Nat} {fuel : Nat} (prev : Nat)
    (h : b.length < fuel) : rmwAux fuel prev b = rmw prev b :=
  rmwAux_fuel_invariant b.length b (le_refl _) fuel (b.length + 1) prev h (by omega)

/-! #### One-step unfolding laws for the minifier scan -/

theorem rmw_nil (prev : Nat) : rmw prev [] = some [] := rfl

theorem rmwAux_marker (f prev p1 p2 p3 p4 : Nat) (r2 : List Nat) :
    rmwAux (f + 1) prev (8 :: p1 :: p2 :: p3 :: p4 :: r2) =
      (rmwAux f prev r2).map fun o => 8 :: p1 :: p2 :: p3 :: p4 :: o := by
  simp [rmwAux]

theorem rmw_marker (prev p1 p2 p3 p4 : Nat) (r2 : List Nat) :
    rmw prev (8 :: p1 :: p2 :: p3 :: p4 :: r2) =
      (rmw prev r2).map fun o => 8 :: p1 :: p2 :: p3 :: p4 :: o := by
  unfold rmw
  rw [show (8 :: p1 :: p2 :: p3 :: p4 :: r2).length + 1 = (r2.length + 5) + 1 by simp,
    rmwAux_marker, rmwAux_eq_rmw prev (by omega)]
  rfl

theorem isWS_cases {x : Nat} (h : isWS x = true) : x = 32 ∨ x = 9 ∨ x = 10 := by
  simpa [isWS, or_assoc] using h

theorem rmwAux_ws_end (f prev : Nat) {x : Nat} (hx : isWS x = true) :
    rmwAux (f + 1) prev [x] = none := by
  rcases isWS_cases hx with rfl | rfl | rfl <;> simp [rmwAux, isWS]

theorem rmw_ws_end (prev : Nat) {x : Nat} (hx : isWS x = true) :
    rmw prev [x] = none := by
  unfold rmw
  rw [show ([x] : List Nat).length + 1 = 1 + 1 by simp, rmwAux_ws_end _ _ hx]

theorem rmwAux_ws (f prev : Nat) {x : Nat} (y : Nat) (t : List Nat)
    (hx : isWS x = true) :
    rmwAux (f + 1) prev (x :: y :: t) =
      if (needsSpace prev = false ∨ needsSpace y = false) ∧ ¬(prev = 45 ∧ y = 45) then
        rmwAux f prev (y :: t)
      else (rmwAux f x (y :: t)).map fun o => x :: o := by
  rcases isWS_cases hx with rfl | rfl | rfl <;> simp [rmwAux, isWS]

theorem rmw_ws_removed (prev : Nat) {x : Nat} (y : Nat) (t : List Nat)
    (hx : isWS x = true)
    (hc : (needsSpace prev = false ∨ needsSpace y = false) ∧ ¬(prev = 45 ∧ y = 45)) :
    rmw prev (x :: y :: t) = rmw prev (y :: t) := by
  unfold rmw
  rw [show (x :: y :: t).length + 1 = (t.length + 2) + 1 by simp,
    rmwAux_ws _ _ _ _ hx, if_pos hc, rmwAux_eq_rmw prev (by simp)]
  rfl

theorem rmw_ws_kept (prev : Nat) {x : Nat} (y : Nat) (t : List Nat)
    (hx : isWS x = true)
    (hc : ¬((needsSpace prev = false ∨ needsSpace y = false) ∧ ¬(prev = 45 ∧ y = 45))) :
    rmw prev (x :: y :: t) = (rmw x (y :: t)).map fun o => x :: o := by
  unfold rmw
  rw [show (x :: y :: t).length + 1 = (t.length + 2) + 1 by simp,
    rmwAux_ws _ _ _ _ hx, if_neg hc, rmwAux_eq_rmw x (by simp)]
  rfl

theorem rmwAux_quote (f prev : Nat) (rest : List Nat) :
    rmwAux (f + 1) prev (34 :: rest) =
      match strScan rest with
      | none => none
      | some (content, rem) => (rmwAux f 34 rem).map fun o => 34 :: (content ++ 34 :: o) := by
  simp [rmwAux, isWS]

theorem rmw_quote_some (prev : Nat) {rest content rem : List Nat}
    (hscan : strScan rest = some (content, rem)) :
    rmw prev (34 :: rest) = (rmw 34 rem).map fun o => 34 :: (content ++ 34 :: o) := by
  unfold rmw
  rw [show (34 :: rest).length + 1 = (rest.length + 1) + 1 by simp, rmwAux_quote, hscan]
  dsimp only
  have hrem := strScan_rem_lt hscan
  rw [rmwAux_eq_rmw 34 (by omega)]
  rfl

theorem rmw_quote_none (prev : Nat) {rest : List Nat}
    (hscan : strScan rest = none) : rmw prev (34 :: rest) = none := by
  unfold rmw
  rw [show (34 :: rest).length + 1 = (rest.length + 1) + 1 by simp, rmwAux_quote, hscan]

theorem rmwAux_slash (f prev : Nat) (rest : List Nat) :
    rmwAux (f + 1) prev (47 :: rest) =
      match rest.head? with
      | none => none
      | some y =>
        if y = 42 then
          match cmtScan rest.tail with
          | some r2 => rmwAux f prev r2
          | none =>
            if rest.tail.isEmpty then none
            else rmwAux f prev rest.tail.tail
        else (rmwAux f 47 rest).map fun o => 47 :: o := by
  simp [rmwAux, isWS]

theorem rmw_slash_end (prev : Nat) : rmw prev [47] = none := by
  unfold rmw
  rw [show ([47] : List Nat).length + 1 = 1 + 1 by simp, rmwAux_slash]
  rfl

theorem rmw_cmt_found (prev : Nat) {r2 r3 : List Nat}
    (hc : cmtScan r2 = some r3) : rmw prev (47 :: 42 :: r2) = rmw prev r3 := by
  unfold rmw
  rw [show (47 :: 42 :: r2).length + 1 = (r2.length + 2) + 1 by simp, rmwAux_slash]
  dsimp only [List.head?_cons, List.tail_cons]
  rw [if_pos rfl, hc]
  dsimp only
  have hlt := cmtScan_rem_lt hc
  exact rmwAux_eq_rmw prev (by omega)

theorem rmw_cmt_none_end (prev : Nat) : rmw prev [47, 42] = none := by
  unfold rmw
  rw [show ([47, 42] : List Nat).length + 1 = 2 + 1 by simp, rmwAux_slash]
  rfl

theorem rmw_cmt_notfound (prev z : Nat) {r3 : List Nat}
    (hc : cmtScan (z :: r3) = none) :
    rmw prev (47 :: 42 :: z :: r3) = rmw prev r3 := by
  unfold rmw
  rw [show (47 :: 42 :: z :: r3).length + 1 = (r3.length + 3) + 1 by simp, rmwAux_slash]
  dsimp only [List.head?_cons, List.tail_cons]
  rw [if_pos rfl, hc]
  dsimp only [List.isEmpty_cons, List.tail_cons]
  rw [if_neg (by simp)]
  exact rmwAux_eq_rmw prev (by omega)

theorem rmw_slash_other (prev : Nat) {y : Nat} (r2 : List Nat) (hy : y ≠ 42) :
    rmw prev (47 :: y :: r2) = (rmw 47 (y :: r2)).map fun o => 47 :: o := by
  unfold rmw
  rw [show (47 :: y :: r2).length + 1 = (r2.length + 2) + 1 by simp, rmwAux_slash]
  dsimp only [List.head?_cons]
  rw [if_neg hy, rmwAux_eq_rmw 47 (by simp)]
  rfl

theorem rmwAux_default (f prev : Nat) {x : Nat} (rest : List Nat)
    (h8 : x ≠ 8) (hws : isWS x = false) (h34 : x ≠ 34) (h47 : x ≠ 47) :
    rmwAux (f + 1) prev (x :: rest) = (rmwAux f x rest).map fun o => x :: o := by
  simp [rmwAux, h8, hws, h34, h47]

theorem rmw_default (prev : Nat) {x : Nat} (rest : List Nat)
    (h8 : x ≠ 8) (hws : isWS x = false) (h34 : x ≠ 34) (h47 : x ≠ 47) :
    rmw prev (x :: rest) = (rmw x rest).map fun o => x :: o := by
  unfold rmw
  rw [show (x :: rest).length + 1 = (rest.length + 1) + 1 by simp,
    rmwAux_default _ _ _ h8 hws h34 h47, rmwAux_eq_rmw x (by omega)]

theorem rmwAux_marker_short (f prev : Nat) {rest : List Nat}
    (h4 : ¬ 4 ≤ rest.length) : rmwAux (f + 1) prev (8 :: rest) = none := by
  simp [rmwAux, h4]

theorem rmw_marker_short (prev : Nat) {rest : List Nat}
    (h4 : ¬ 4 ≤ rest.length) : rmw prev (8 :: rest) = none := by
  unfold rmw
  rw [show (8 :: rest).length + 1 = (rest.length + 1) + 1 by simp,
    rmwAux_marker_short _ _ h4]

/-! #### Idempotence of the minifier on `'/'`-free inputs -/

/-- Re-scanning copied string-literal contents finds the same contents and
the appended terminator. -/
theorem strScan_replay_aux : ∀ (n : Nat) (l : List Nat), l.length ≤ n →
    ∀ c rem, strScan l = some (c, rem) →
    ∀ z, strScan (c ++ 34 :: z) = some (c, z) := by
  intro n
  induction n with
  | zero =>
    intro l hl c rem hs
    cases l with
    | nil => simp [strScan_nil] at hs
    | cons x r => simp at hl
  | succ k ih =>
    intro l hl c rem hs z
    cases l with
    | nil => simp [strScan_nil] at hs
    | cons x r =>
      by_cases hx : x = 34
      · subst hx
        rw [strScan_quote] at hs
        simp only [Option.some.injEq, Prod.mk.injEq] at hs
        rw [← hs.1]
        exact strScan_quote z
      · by_cases hb : x = 92
        · subst hb
          cases r with
          | nil => simp [strScan_esc_end] at hs
          | cons d r2 =>
            rw [strScan_esc, Option.map_eq_some'] at hs
            obtain ⟨pr, hpr, heq⟩ := hs
            simp only [Prod.mk.injEq] at heq
            have hlen : r2.length ≤ k := by simp at hl; omega
            have hrep := ih r2 hlen pr.1 pr.2 (by rw [hpr]) z
            rw [← heq.1]
            show strScan (92 :: d :: (pr.1 ++ 34 :: z)) = _
            rw [strScan_esc, hrep]
            rfl
        · rw [strScan_other r hx hb, Option.map_eq_some'] at hs
          obtain ⟨pr, hpr, heq⟩ := hs
          simp only [Prod.mk.injEq] at heq
          have hlen : r.length ≤ k := by simp at hl; omega
          have hrep := ih r hlen pr.1 pr.2 (by rw [hpr]) z
          rw [← heq.1]
          show strScan (x :: (pr.1 ++ 34 :: z)) = _
          rw [strScan_other _ hx hb, hrep]
          rfl

theorem strScan_replay {l c rem : List Nat} (h : strScan l = some (c, rem))
    (z : List Nat) : strScan (c ++ 34 :: z) = some (c, z) :=
  strScan_replay_aux l.length l (le_refl _) c rem h z

/-- An identifier-like byte is none of the scanner's special bytes. -/
theorem needsSpace_not_special {y : Nat} (h : needsSpace y = true) :
    y ≠ 8 ∧ isWS y = false ∧ y ≠ 34 ∧ y ≠ 47 := by
  have hy : (97 ≤ y ∧ y ≤ 122) ∨ (65 ≤ y ∧ y ≤ 90) ∨ (48 ≤ y ∧ y ≤ 57) ∨
      y = 95 ∨ y = 36 := by
    simpa [needsSpace, or_assoc] using h
  refine ⟨by omega, ?_, by omega, by omega⟩
  simp only [isWS, Bool.or_eq_false_iff, beq_eq_false_iff_ne]
  omega

theorem rmw_idem_no47_aux : ∀ (n : Nat) (b : List Nat), b.length ≤ n →
    47 ∉ b → ∀ prev out, rmw prev b = some out → rmw prev out = some out := by
  intro n
  induction n with
  | zero =>
    intro b hb h47 prev out h
    have hnil : b = [] := List.eq_nil_of_length_eq_zero (by omega)
    subst hnil
    rw [rmw_nil] at h
    simp only [Option.some.injEq] at h
    rw [← h, rmw_nil]
  | succ n ih =>
    intro b hb h47 prev out h
    cases b with
    | nil =>
      rw [rmw_nil] at h
      simp only [Option.some.injEq] at h
      rw [← h, rmw_nil]
    | cons x rest =>
      have hrest : rest.length ≤ n := by simp at hb; omega
      have h47r : 47 ∉ rest := fun hm => h47 (List.mem_cons_of_mem x hm)
      have hx47 : x ≠ 47 := fun he => h47 (he ▸ List.mem_cons_self x rest)
      by_cases hx8 : x = 8
      · subst hx8
        by_cases h4 : 4 ≤ rest.length
        · match rest, h4 with
          | p1 :: p2 :: p3 :: p4 :: r2, _ =>
            rw [rmw_marker] at h
            rw [Option.map_eq_some'] at h
            obtain ⟨o, ho, rfl⟩ := h
            have hr2 : 47 ∉ r2 := by
              intro hm
              exact h47r (by simp [hm])
            have hrec := ih r2 (by simp at hrest; omega) hr2 prev o ho
            rw [rmw_marker, hrec]
            rfl
        · rw [rmw_marker_short prev h4] at h
          exact absurd h (by simp)
      · by_cases hws : isWS x = true
        · cases rest with
          | nil =>
            rw [rmw_ws_end prev hws] at h
            exact absurd h (by simp)
          | cons y t =>
            by_cases hcond : (needsSpace prev = false ∨ needsSpace y = false) ∧
                ¬(prev = 45 ∧ y = 45)
            · rw [rmw_ws_removed prev y t hws hcond] at h
              exact ih (y :: t) hrest h47r prev out h
            · rw [rmw_ws_kept prev y t hws hcond] at h
              rw [Option.map_eq_some'] at h
              obtain ⟨o1, ho1, rfl⟩ := h
              have hyspec : y ≠ 8 ∧ isWS y = false ∧ y ≠ 34 ∧ y ≠ 47 := by
                rw [not_and_or] at hcond
                rcases hcond with hc1 | hc2
                · push_neg at hc1
                  exact needsSpace_not_special
                    (by rcases hc1 with ⟨_, h2⟩; revert h2; cases needsSpace y <;> simp)
                · push_neg at hc2
                  rcases hc2 with ⟨_, rfl⟩
                  refine ⟨by omega, by simp [isWS], by omega, by omega⟩
              obtain ⟨hy8, hyws, hy34, hy47⟩ := hyspec
              rw [rmw_default x t hy8 hyws hy34 hy47, Option.map_eq_some'] at ho1
              obtain ⟨o2, ho2, rfl⟩ := ho1
              have hrec : rmw x (y :: o2) = some (y :: o2) :=
                ih (y :: t) hrest h47r x (y :: o2)
                  (by rw [rmw_default x t hy8 hyws hy34 hy47, ho2]; rfl)
              rw [rmw_ws_kept prev y o2 hws hcond, hrec]
              rfl
        · by_cases hx34 : x = 34
          · subst hx34
            cases hscan : strScan rest with
            | none =>
              rw [rmw_quote_none prev hscan] at h
              exact absurd h (by simp)
            | some pr =>
              obtain ⟨content, rem⟩ := pr
              rw [rmw_quote_some prev hscan, Option.map_eq_some'] at h
              obtain ⟨o, ho, rfl⟩ := h
              have hdec := strScan_decomp hscan
              have hremlt := strScan_rem_lt hscan
              have hrem47 : 47 ∉ rem := by
                intro hm
                exact h47r (by rw [hdec]; simp [hm])
              have hrec := ih rem (by omega) hrem47 34 o ho
              rw [show (34 :: (content ++ 34 :: o) : List Nat) =
                34 :: (content ++ 34 :: o) from rfl,
                rmw_quote_some prev (strScan_replay hscan o), hrec]
              rfl
          · rw [rmw_default prev rest hx8
              (by revert hws; cases isWS x <;> simp) hx34 hx47] at h
            rw [Option.map_eq_some'] at h
            obtain ⟨o, ho, rfl⟩ := h
            have hrec := ih rest hrest h47r x o ho
            rw [rmw_default prev o hx8
              (by revert hws; cases isWS x <;> simp) hx34 hx47, hrec]
            rfl

/-- C8 counterexample: `removeWhitespace` with minify enabled is not
idempotent.  On `"/ *x*/y"` it removes the space, fusing `/` and `*` into a
comment opener; minifying the output again strips `"/*x*/"` as a comment,
leaving `"y"`. -/
theorem removeWhitespace_not_idempotent :
    removeWhitespace [47, 32, 42, 120, 42, 47, 121] true =
      some [47, 42, 120, 42, 47, 121] ∧
    removeWhitespace [47, 42, 120, 42, 47, 121] true = some [121] ∧
    ([47, 42, 120, 42, 47, 121] : List Nat) ≠ [121] :=
  ⟨by decide, by decide, by decide⟩

/-- C8 (amended): with minify enabled, `removeWhitespace` is idempotent on
every byte sequence containing no `'/'` (47) on which it is defined; it
copies each debug-position marker (sentinel plus 4-byte payload) through
verbatim; and it copies quoted string-literal contents through unchanged
(the scan returns exactly the literal's bytes, and re-scanning the copied
contents yields the same contents). -/
theorem removeWhitespace_idempotent_no_slash :
    (∀ b out, 47 ∉ b → removeWhitespace b true = some out →
      removeWhitespace out true = some out)
  ∧ (∀ prev p1 p2 p3 p4 r2, rmw prev (8 :: p1 :: p2 :: p3 :: p4 :: r2) =
      (rmw prev r2).map fun o => 8 :: p1 :: p2 :: p3 :: p4 :: o)
  ∧ (∀ prev rest content rem, strScan rest = some (content, rem) →
      rest = content ++ 34 :: rem ∧
      rmw prev (34 :: rest) = (rmw 34 rem).map fun o => 34 :: (content ++ 34 :: o)) := by
  refine ⟨?_, rmw_marker, ?_⟩
  · intro b out h47 h
    simp only [removeWhitespace, if_pos rfl] at h ⊢
    exact rmw_idem_no47_aux b.length b (le_refl _) h47 0 out h
  · intro prev rest content rem hscan
    exact ⟨strScan_decomp hscan, rmw_quote_some prev hscan⟩

/-- Witness for `removeWhitespace_idempotent_no_slash` at a concrete input:
minifying `"a  b"` gives `"a b"`, and minifying that again is a no-op. -/
theorem removeWhitespace_idempotent_no_slash_witness :
    removeWhitespace [97, 32, 98] true = some [97, 32, 98] :=
  removeWhitespace_idempotent_no_slash.1 [97, 32, 32, 98] [97, 32, 98]
    (by decide) (by decide)

/-- C10 counterexample: the claim that any input whose last byte is a
space, tab or newline panics is false — the input `"/* "` (an unclosed
comment opener followed by a space) is defined and returns the empty
output, and the marker input `[8, 1, 2, 3, 32]` carries its trailing space
as payload. -/
theorem removeWhitespace_trailing_ws_defined :
    removeWhitespace [47, 42, 32] true = some [] ∧
    ([47, 42, 32] : List Nat).getLast? = some 32 ∧
    removeWhitespace [8, 1, 2, 3, 32] true = some [8, 1, 2, 3, 32] :=
  ⟨by decide, by decide, by decide⟩

/-- C10 (amended): `removeWhitespace` with minify enabled is not total: any
input consisting of non-special bytes followed by a trailing whitespace byte
panics (the neighbor test reads past the end), and such a prefix followed by
an unterminated string literal panics (`bytes.IndexAny` returns -1); in
particular the single-byte inputs `" "` and `"\""` panic.  (Not every input
whose last byte is whitespace panics: a trailing whitespace byte inside an
unclosed comment or inside a marker payload is never scanned as
whitespace.) -/
theorem removeWhitespace_not_total :
    (∀ xs : List Nat, (∀ z ∈ xs, z ≠ 8 ∧ isWS z = false ∧ z ≠ 34 ∧ z ≠ 47) →
      ∀ w, isWS w = true → removeWhitespace (xs ++ [w]) true = none)
  ∧ (∀ xs : List Nat, (∀ z ∈ xs, z ≠ 8 ∧ isWS z = false ∧ z ≠ 34 ∧ z ≠ 47) →
      removeWhitespace (xs ++ [34]) true = none) := by
  have key : ∀ (xs : List Nat), (∀ z ∈ xs, z ≠ 8 ∧ isWS z = false ∧ z ≠ 34 ∧ z ≠ 47) →
      ∀ prev tailb, (∀ p, rmw p tailb = none) → rmw prev (xs ++ tailb) = none := by
    intro xs
    induction xs with
    | nil => intro _ prev tailb htail; simpa using htail prev
    | cons z zs ihz =>
      intro hz prev tailb htail
      obtain ⟨h8, hws, h34, h47⟩ := hz z (List.mem_cons_self z zs)
      rw [List.cons_append, rmw_default prev (zs ++ tailb) h8 hws h34 h47,
        ihz (fun a ha => hz a (List.mem_cons_of_mem z ha)) z tailb htail]
      rfl
  constructor
  · intro xs hxs w hw
    simp only [removeWhitespace, if_pos rfl]
    exact key xs hxs 0 [w] (fun p => rmw_ws_end p hw)
  · intro xs hxs
    simp only [removeWhitespace, if_pos rfl]
    refine key xs hxs 0 [34] (fun p => ?_)
    exact rmw_quote_none p strScan_nil

/-- Witness for `removeWhitespace_not_total`: the single-byte inputs `" "`
and `"\""` panic. -/
theorem removeWhitespace_not_total_witness :
    removeWhitespace ([] ++ [32]) true = none ∧
    removeWhitespace ([] ++ [34]) true = none :=
  ⟨removeWhitespace_not_total.1 [] (by simp) 32 (by decide),
   removeWhitespace_not_total.2 [] (by simp)⟩

/-! ### The Go type oracle (go/types shapes, as consumed by utils.go) -/

/-- go/types basic-type kinds (`types.BasicKind`; `byte` is `uint8` and
`rune` is `int32`, as in go/types). -/
inductive BasicKind
  | invalid | bool | int | int8 | int16 | int32 | int64
  | uint | uint8 | uint16 | uint32 | uint64 | uintptr
  | float32 | float64 | complex64 | complex128 | string | unsafePointer
  | untypedBool | untypedInt | untypedRune | untypedFloat | untypedComplex
  | untypedString | untypedNil
deriving DecidableEq, Repr

/-- A `types.Object` as utils.go consumes it: identity plus the
package/scope/export facts supplied by the front-end.  `samePkg` is
`o.Pkg() == c.p.Pkg`, `pkgScope` is `o.Parent() == c.p.Pkg.Scope()`. -/
structure Obj where
  id : Nat
  name : Name
  samePkg : Bool
  pkgPath : Name
  pkgScope : Bool
  exported : Bool
  isVarOrConst : Bool
  isVar : Bool
deriving DecidableEq, Repr

/-
Go types by shape.  A struct field carries (name, type, tag).  Named
types are identified by their object, unnamed shapes structurally, so Lean
equality on `Ty` matches `types.Identical` as used by the `typesutil.Map`
keying `anonTypeMap`.  (`Fields` and `TyList` are plain lists, spelled as a
mutual inductive so equality is derivable.)
-/
mutual
/-- A Go type shape (`types.Type`). -/
inductive Ty
  | basic (k : BasicKind)
  | named (o : Obj) (u : Ty)
  | array (len : Nat) (elem : Ty)
  | slice (elem : Ty)
  | map (key val : Ty)
  | struct (fields : Fields)
  | interface (methods : List Name)
  | signature (params results : TyList) (variadic : Bool)
  | pointer (elem : Ty)
  | chan (elem : Ty)
deriving DecidableEq, Repr

/-- A struct's field list: (name, type, tag) triples. -/
inductive Fields
  | nil
  | cons (name : Name) (ty : Ty) (tag : Name) (tail : Fields)
deriving DecidableEq, Repr

/-- A list of types (signature parameters/results). -/
inductive TyList
  | nil
  | cons (head : Ty) (tail : TyList)
deriving DecidableEq, Repr
end

/-- The field types of a struct's field list. -/
def Fields.types : Fields → List Ty
  | .nil => []
  | .cons _ t _ tl => t :: tl.types

/-- `Fields` as a list of (name, type, tag). -/
def Fields.toList : Fields → List (Name × Ty × Name)
  | .nil => []
  | .cons nm t tg tl => (nm, t, tg) :: tl.toList

/-- `TyList` as a plain list. -/
def TyList.toList : TyList → List Ty
  | .nil => []
  | .cons t tl => t :: tl.toList

/-- `types.Type.Underlying()`: strip named wrappers. -/
def underlying : Ty → Ty
  | .named _ u => underlying u
  | t => t

/-- `typesutil.IsJsObject` (external helper): a pointer to the named type
`js.Object`; the js package's `Object` object is modelled as object id 0. -/
def isJsObject : Ty → Bool
  | .pointer (.named o _) => o.id == 0
  | _ => false

/-- `is64Bit`. -/
def is64Bit : BasicKind → Bool
  | .int64 | .uint64 => true
  | _ => false

/-- `isBoolean` (`types.IsBoolean` info bit). -/
def isBoolean : BasicKind → Bool
  | .bool | .untypedBool => true
  | _ => false

/-- `isComplex` (`types.IsComplex` info bit). -/
def isComplex : BasicKind → Bool
  | .complex64 | .complex128 | .untypedComplex => true
  | _ => false

/-- `isFloat` (`types.IsFloat` info bit). -/
def isFloat : BasicKind → Bool
  | .float32 | .float64 | .untypedFloat => true
  | _ => false

/-- `isInteger` (`types.IsInteger` info bit). -/
def isInteger : BasicKind → Bool
  | .int | .int8 | .int16 | .int32 | .int64
  | .uint | .uint8 | .uint16 | .uint32 | .uint64 | .uintptr
  | .untypedInt | .untypedRune => true
  | _ => false

/-- `isNumeric` (`types.IsNumeric` = integer, float or complex). -/
def isNumeric (k : BasicKind) : Bool := isInteger k || isFloat k || isComplex k

/-- `isString` (`types.IsString` info bit). -/
def isString : BasicKind → Bool
  | .string | .untypedString => true
  | _ => false

/-- `isUnsigned` (`types.IsUnsigned` info bit). -/
def isUnsigned : BasicKind → Bool
  | .uint | .uint8 | .uint16 | .uint32 | .uint64 | .uintptr => true
  | _ => false

/-- `toJavaScriptType`: `UntypedInt` to "Int", `Byte` to "Uint8", `Rune` to
"Int32", `UnsafePointer` to "UnsafePointer", otherwise the kind's name with
its first letter upper-cased (the byte lists spell those strings). -/
def toJavaScriptType : BasicKind → Name
  | .untypedInt => [73, 110, 116]
  | .uint8 => [85, 105, 110, 116, 56]
  | .int32 => [73, 110, 116, 51, 50]
  | .unsafePointer => [85, 110, 115, 97, 102, 101, 80, 111, 105, 110, 116, 101, 114]
  | .invalid => [73, 110, 118, 97, 108, 105, 100, 32, 116, 121, 112, 101]
  | .bool => [66, 111, 111, 108]
  | .int => [73, 110, 116]
  | .int8 => [73, 110, 116, 56]
  | .int16 => [73, 110, 116, 49, 54]
  | .int64 => [73, 110, 116, 54, 52]
  | .uint => [85, 105, 110, 116]
  | .uint16 => [85, 105, 110, 116, 49, 54]
  | .uint32 => [85, 105, 110, 116, 51, 50]
  | .uint64 => [85, 105, 110, 116, 54, 52]
  | .uintptr => [85, 105, 110, 116, 112, 116, 114]
  | .float32 => [70, 108, 111, 97, 116, 51, 50]
  | .float64 => [70, 108, 111, 97, 116, 54, 52]
  | .complex64 => [67, 111, 109, 112, 108, 101, 120, 54, 52]
  | .complex128 => [67, 111, 109, 112, 108, 101, 120, 49, 50, 56]
  | .string => [83, 116, 114, 105, 110, 103]
  | .untypedBool => [85, 110, 116, 121, 112, 101, 100, 32, 98, 111, 111, 108]
  | .untypedRune => [85, 110, 116, 121, 112, 101, 100, 32, 114, 117, 110, 101]
  | .untypedFloat => [85, 110, 116, 121, 112, 101, 100, 32, 102, 108, 111, 97, 116]
  | .untypedComplex =>
      [85, 110, 116, 121, 112, 101, 100, 32, 99, 111, 109, 112, 108, 101, 120]
  | .untypedString =>
      [85, 110, 116, 121, 112, 101, 100, 32, 115, 116, 114, 105, 110, 103]
  | .untypedNil => [85, 110, 116, 121, 112, 101, 100, 32, 110, 105, 108]

/-- `typeKind`: the `$kind...` tag of a type's underlying shape
(`[36,107,105,110,100]` spells `$kind`; my `Ty` has no `types.Tuple`, so
the source's default panic case cannot arise). -/
def typeKind (ty : Ty) : Name :=
  match underlying ty with
  | .basic t => [36, 107, 105, 110, 100] ++ toJavaScriptType t
  | .array _ _ => [36, 107, 105, 110, 100] ++ [65, 114, 114, 97, 121]
  | .chan _ => [36, 107, 105, 110, 100] ++ [67, 104, 97, 110]
  | .interface _ => [36, 107, 105, 110, 100] ++ [73, 110, 116, 101, 114, 102, 97, 99, 101]
  | .map _ _ => [36, 107, 105, 110, 100] ++ [77, 97, 112]
  | .signature _ _ _ => [36, 107, 105, 110, 100] ++ [70, 117, 110, 99]
  | .slice _ => [36, 107, 105, 110, 100] ++ [83, 108, 105, 99, 101]
  | .struct _ => [36, 107, 105, 110, 100] ++ [83, 116, 114, 117, 99, 116]
  | .pointer _ => [36, 107, 105, 110, 100] ++ [80, 116, 114]
  | .named _ _ => []

/-- `strings.ToLower` on one ASCII byte. -/
def toLowerByte (b : Nat) : Nat := if 65 ≤ b ∧ b ≤ 90 then b + 32 else b

/-- The base name for an anonymous type's descriptor variable:
`strings.ToLower(typeKind(ty)[5:]) + "Type"` ([84,121,112,101] is `Type`). -/
def anonBase (ty : Ty) : Name :=
  ((typeKind ty).drop 5).map toLowerByte ++ [84, 121, 112, 101]

/-- A dependency entry (`c.p.dependencies` is keyed by `types.Object`): a
real object, or the fake `types.TypeName` of an anonymous type, identified
by its allocated descriptor name. -/
inductive Dep
  | obj (id : Nat)
  | anon (name : Name)
deriving DecidableEq, Repr

/-- The unit-level (`pkgContext`) state that utils.go touches. -/
structure UnitContext where
  minify : Bool
  objectNames : List (Nat × Name)
  dependencies : List Dep
  pkgVars : List (Name × Name)
  escapingVars : List Nat
  anonTypeMap : List (Ty × Name)
  anonTypes : List (Ty × Name)
deriving DecidableEq, Repr

/-- A `funcContext` as seen by the type-descriptor resolver: the unit state
plus its own naming scope and the parent chain. -/
structure Ctx where
  p : UnitContext
  self : FuncScope
  parents : List FuncScope
deriving DecidableEq, Repr

/-- Association-list lookup (Go map read returning `(value, ok)`). -/
def alookup {α β : Type} [DecidableEq α] : List (α × β) → α → Option β
  | [], _ => none
  | (k, v) :: r, a => if k = a then some v else alookup r a

/-- Go map-insert into a set (`dependencies[d] = true`). -/
def addDep (d : Dep) (deps : List Dep) : List Dep :=
  if d ∈ deps then deps else d :: deps

/-- `objectName`: dependency registration, cross-package qualification,
the `$pkg.` form for exported package-scope variables and constants,
memoized name allocation, and the boxed `[0]` form for escaping variables.
`none` models the allocator's empty-name panic. -/
def objectName (c : Ctx) (o : Obj) : Option (Name × Ctx) :=
  let c : Ctx := if ¬o.samePkg ∨ o.pkgScope then
      { c with p := { c.p with dependencies := addDep (.obj o.id) c.p.dependencies } }
    else c
  if ¬o.samePkg then
    let pkgVar : Name :=
      match alookup c.p.pkgVars o.pkgPath with
      | some v => v
      | none => [36, 112, 97, 99, 107, 97, 103, 101, 115, 91, 34] ++ o.pkgPath ++ [34, 93]
    some (pkgVar ++ [46] ++ o.name, c)
  else if o.isVarOrConst = true ∧ o.exported = true ∧ o.pkgScope = true then
    some ([36, 112, 107, 103, 46] ++ o.name, c)
  else
    let r : Option (Name × Ctx) :=
      match alookup c.p.objectNames o.id with
      | some nm => some (nm, c)
      | none =>
        match newVariableWithLevel c.p.minify c.self c.parents o.name o.pkgScope with
        | none => none
        | some (nm, self', parents') =>
          some (nm, { c with
            self := self'
            parents := parents'
            p := { c.p with objectNames := (o.id, nm) :: c.p.objectNames } })
    match r with
    | none => none
    | some (nm, c) =>
      if o.isVar = true ∧ o.id ∈ c.p.escapingVars then some (nm ++ [91, 48, 93], c)
      else some (nm, c)

/-- Modelled from the spec: `initArgs` (defined elsewhere in the
repository) causes all embedded/contained types to be registered —
"resolving an anonymous type recursively forces resolution of
embedded/contained types first".  These are the contained component
types. -/
def components : Ty → List Ty
  | .array _ e => [e]
  | .slice e => [e]
  | .map k v => [k, v]
  | .struct fs => fs.types
  | .signature ps rs _ => ps.toList ++ rs.toList
  | .pointer e => [e]
  | .chan e => [e]
  | _ => []

/-- Whether `typeName` takes the `$emptyInterface` early return
(`t.Empty()` on an interface). -/
def isEmptyInterface : Ty → Bool
  | .interface [] => true
  | _ => false

/-- The anonymous-type path of `typeName`: memo lookup in `anonTypeMap`;
on a miss, register the component types (`rec` is the recursive descent,
modelled from the spec's description of `initArgs`), allocate a
package-level descriptor name, append the synthetic entry, memoize; either
way register the dependency on the (fake) type object, identified by its
name. -/
def anonBranch (rec : Ctx → Ty → Option (Name × Ctx)) (c : Ctx) (ty : Ty) :
    Option (Name × Ctx) :=
  match alookup c.p.anonTypeMap ty with
  | some nm =>
    some (nm, { c with p :=
      { c.p with dependencies := addDep (.anon nm) c.p.dependencies } })
  | none =>
    match (components ty).foldlM (fun cc t => (rec cc t).map Prod.snd) c with
    | none => none
    | some c1 =>
      match newVariableWithLevel c1.p.minify c1.self c1.parents (anonBase ty) true with
      | none => none
      | some (varName, self', parents') =>
        some (varName, { c1 with
          self := self'
          parents := parents'
          p := { c1.p with
            anonTypes := c1.p.anonTypes ++ [(ty, varName)]
            anonTypeMap := (ty, varName) :: c1.p.anonTypeMap
            dependencies := addDep (.anon varName) c1.p.dependencies } })

/-- `typeName`, with recursion fuel for the spec-modelled `initArgs`
descent into component types (`none` on fuel exhaustion or an allocator
panic; any fuel larger than the type's nesting depth behaves alike).
`[36]` is `$`, `[101,114,114,111,114]` spells `error`. -/
def typeNameF : Nat → Ctx → Ty → Option (Name × Ctx)
  | 0, _, _ => none
  | f + 1, c, ty =>
    match ty with
    | .basic t => some ([36] ++ toJavaScriptType t, c)
    | .named o _ =>
      if o.name = [101, 114, 114, 111, 114] then
        some ([36, 101, 114, 114, 111, 114], c)
      else objectName c o
    | ty =>
      if isEmptyInterface ty then
        some ([36, 101, 109, 112, 116, 121, 73, 110, 116, 101, 114, 102, 97, 99, 101], c)
      else anonBranch (typeNameF f) c ty

/-
Nesting depth of a type, an adequate fuel bound for `typeNameF`.
-/
mutual
/-- Nesting depth of a type. -/
def tyDepth : Ty → Nat
  | .basic _ => 0
  | .named _ _ => 0
  | .array _ e => tyDepth e + 1
  | .slice e => tyDepth e + 1
  | .map k v => Nat.max (tyDepth k) (tyDepth v) + 1
  | .struct fs => fieldsDepth fs + 1
  | .interface _ => 1
  | .signature ps rs _ => Nat.max (tyListDepth ps) (tyListDepth rs) + 1
  | .pointer e => tyDepth e + 1
  | .chan e => tyDepth e + 1

/-- Greatest field-type depth. -/
def fieldsDepth : Fields → Nat
  | .nil => 0
  | .cons _ t _ tl => Nat.max (tyDepth t) (fieldsDepth tl)

/-- Greatest element depth. -/
def tyListDepth : TyList → Nat
  | .nil => 0
  | .cons t tl => Nat.max (tyDepth t) (tyListDepth tl)
end

/-- `typeName` at adequate fuel. -/
def typeName (c : Ctx) (ty : Ty) : Option (Name × Ctx) :=
  typeNameF (tyDepth ty + 1) c ty

/-- `zeroValue`.  The outer `Option` is the embedding's fuel/allocator
bookkeeping (`none` never corresponds to a program behavior the claims
mention); `Except.error` is a Go `panic` carrying its message. -/
def zeroValue (f : Nat) (c : Ctx) (ty : Ty) : Option (Except Name (Name × Ctx)) :=
  if isJsObject ty then some (.ok ([110, 117, 108, 108], c))
  else
    match underlying ty with
    | .basic t =>
      if is64Bit t || isComplex t then
        (typeNameF f c ty).map fun r =>
          .ok ([110, 101, 119, 32] ++ r.1 ++ [40, 48, 44, 32, 48, 41], r.2)
      else if isBoolean t then some (.ok ([102, 97, 108, 115, 101], c))
      else if isNumeric t || t == .unsafePointer then some (.ok ([48], c))
      else if isString t then some (.ok ([34, 34], c))
      else if t == .untypedNil then
        some (.error [90, 101, 114, 111, 32, 118, 97, 108, 117, 101, 32, 102, 111,
          114, 32, 117, 110, 116, 121, 112, 101, 100, 32, 110, 105, 108, 46])
      else
        some (.error [85, 110, 104, 97, 110, 100, 108, 101, 100, 32, 116, 121, 112, 101])
    | .array _ _ =>
      (typeNameF f c ty).map fun r => .ok (r.1 ++ [46, 122, 101, 114, 111, 40, 41], r.2)
    | .signature _ _ _ =>
      some (.ok ([36, 116, 104, 114, 111, 119, 78, 105, 108, 80, 111, 105, 110,
        116, 101, 114, 69, 114, 114, 111, 114], c))
    | .slice _ =>
      (typeNameF f c ty).map fun r => .ok (r.1 ++ [46, 110, 105, 108], r.2)
    | .struct _ =>
      (typeNameF f c ty).map fun r =>
        .ok ([110, 101, 119, 32] ++ r.1 ++ [46, 112, 116, 114, 40, 41], r.2)
    | .map _ _ => some (.ok ([102, 97, 108, 115, 101], c))
    | .interface _ => some (.ok ([36, 105, 102, 97, 99, 101, 78, 105, 108], c))
    | _ =>
      (typeNameF f c ty).map fun r => .ok (r.1 ++ [46, 110, 105, 108], r.2)

/-! ### C4: the `zeroValue` dispatch -/

theorem isJsObject_false_of_underlying_basic {ty : Ty} {t : BasicKind}
    (h : underlying ty = .basic t) : isJsObject ty = false := by
  cases ty <;> first
    | (simp [isJsObject]; done)
    | (simp [isJsObject]; simp [underlying] at h)

/-- A fresh unit context (plain mode, all registries empty). -/
def emptyCtx : Ctx := ⟨⟨false, [], [], [], [], [], []⟩, emptyScope, []⟩

/-- C4: `zeroValue` dispatches on the underlying type kind — the interop
object type yields `null`; boolean kinds yield `false`, non-64-bit
non-complex numeric kinds and `unsafe.Pointer` yield `0`, string kinds
yield `""`; 64-bit integer and complex kinds yield `new T(0, 0)`; function
signatures yield `$throwNilPointerError`; slices, pointers and channels
yield `T.nil`, maps yield `false` (the runtime's nil-map sentinel),
interfaces yield `$ifaceNil`; arrays yield `T.zero()` and structs
`new T.ptr()`; and it panics exactly when the underlying type is the
untyped-nil pseudo-type or the unhandled `invalid` basic kind. -/
theorem zeroValue_dispatch :
    (∀ f c ty, isJsObject ty = true →
      zeroValue f c ty = some (.ok ([110, 117, 108, 108], c)))
  ∧ (∀ f c ty, underlying ty = .basic .untypedNil →
      zeroValue f c ty = some (.error [90, 101, 114, 111, 32, 118, 97, 108, 117,
        101, 32, 102, 111, 114, 32, 117, 110, 116, 121, 112, 101, 100, 32, 110,
        105, 108, 46]))
  ∧ (∀ f c ty, underlying ty = .basic .invalid →
      zeroValue f c ty = some (.error [85, 110, 104, 97, 110, 100, 108, 101, 100,
        32, 116, 121, 112, 101]))
  ∧ (∀ f c ty msg, zeroValue f c ty = some (.error msg) →
      isJsObject ty = false ∧
      (underlying ty = .basic .untypedNil ∨ underlying ty = .basic .invalid))
  ∧ (∀ f c ty t, underlying ty = .basic t → isBoolean t = true →
      zeroValue f c ty = some (.ok ([102, 97, 108, 115, 101], c)))
  ∧ (∀ f c ty t, underlying ty = .basic t →
      (is64Bit t || isComplex t) = false → isBoolean t = false →
      (isNumeric t || t == BasicKind.unsafePointer) = true →
      zeroValue f c ty = some (.ok ([48], c)))
  ∧ (∀ f c ty t, underlying ty = .basic t → isString t = true →
      zeroValue f c ty = some (.ok ([34, 34], c)))
  ∧ (∀ f c ty t tn c', underlying ty = .basic t →
      (is64Bit t || isComplex t) = true → typeNameF f c ty = some (tn, c') →
      isJsObject ty = false →
      zeroValue f c ty =
        some (.ok ([110, 101, 119, 32] ++ tn ++ [40, 48, 44, 32, 48, 41], c')))
  ∧ (∀ f c ty ps rs v, underlying ty = .signature ps rs v → isJsObject ty = false →
      zeroValue f c ty = some (.ok ([36, 116, 104, 114, 111, 119, 78, 105, 108,
        80, 111, 105, 110, 116, 101, 114, 69, 114, 114, 111, 114], c)))
  ∧ (∀ f c ty k v, underlying ty = .map k v → isJsObject ty = false →
      zeroValue f c ty = some (.ok ([102, 97, 108, 115, 101], c)))
  ∧ (∀ f c ty ms, underlying ty = .interface ms → isJsObject ty = false →
      zeroValue f c ty = some (.ok ([36, 105, 102, 97, 99, 101, 78, 105, 108], c)))
  ∧ (∀ f c ty e tn c', underlying ty = .slice e →
      typeNameF f c ty = some (tn, c') → isJsObject ty = false →
      zeroValue f c ty = some (.ok (tn ++ [46, 110, 105, 108], c')))
  ∧ (∀ f c ty e tn c', underlying ty = .pointer e →
      typeNameF f c ty = some (tn, c') → isJsObject ty = false →
      zeroValue f c ty = some (.ok (tn ++ [46, 110, 105, 108], c')))
  ∧ (∀ f c ty e tn c', underlying ty = .chan e →
      typeNameF f c ty = some (tn, c') → isJsObject ty = false →
      zeroValue f c ty = some (.ok (tn ++ [46, 110, 105, 108], c')))
  ∧ (∀ f c ty n e tn c', underlying ty = .array n e →
      typeNameF f c ty = some (tn, c') → isJsObject ty = false →
      zeroValue f c ty = some (.ok (tn ++ [46, 122, 101, 114, 111, 40, 41], c')))
  ∧ (∀ f c ty fs tn c', underlying ty = .struct fs →
      typeNameF f c ty = some (tn, c') → isJsObject ty = false →
      zeroValue f c ty =
        some (.ok ([110, 101, 119, 32] ++ tn ++ [46, 112, 116, 114, 40, 41], c'))) := by
  refine ⟨?_, ?_, ?_, ?_, ?_, ?_, ?_, ?_, ?_, ?_, ?_, ?_, ?_, ?_, ?_, ?_⟩
  · intro f c ty h
    simp [zeroValue, h]
  · intro f c ty h
    simp [zeroValue, isJsObject_false_of_underlying_basic h, h, is64Bit, isComplex,
      isBoolean, isNumeric, isInteger, isFloat, isString]
  · intro f c ty h
    simp [zeroValue, isJsObject_false_of_underlying_basic h, h, is64Bit, isComplex,
      isBoolean, isNumeric, isInteger, isFloat, isString]
  · intro f c ty msg h
    by_cases hjs : isJsObject ty = true
    · simp [zeroValue, hjs] at h
    · refine ⟨by simpa using hjs, ?_⟩
      rw [zeroValue, if_neg hjs] at h
      cases hu : underlying ty <;> rw [hu] at h <;> dsimp only at h
      all_goals
        first
          | (simp [Option.map_eq_some'] at h; done)
          | (simp [hu]; done)
          | (rename_i t
             cases t <;>
               first
                 | (simp [Option.map_eq_some', is64Bit, isComplex, isBoolean,
                     isNumeric, isInteger, isFloat, isString] at h; done)
                 | simp)
  · intro f c ty t hu hb
    have ht : t = .bool ∨ t = .untypedBool := by
      cases t <;> simp [isBoolean] at hb <;> simp
    rcases ht with rfl | rfl <;>
      simp [zeroValue, isJsObject_false_of_underlying_basic hu, hu, is64Bit,
        isComplex, isBoolean]
  · intro f c ty t hu h64 hb hn
    rw [zeroValue, if_neg (by simp [isJsObject_false_of_underlying_basic hu]), hu]
    simp [h64, hb, hn]
  · intro f c ty t hu hs
    have ht : t = .string ∨ t = .untypedString := by
      cases t <;> simp [isString] at hs <;> simp
    rcases ht with rfl | rfl <;>
      simp [zeroValue, isJsObject_false_of_underlying_basic hu, hu, is64Bit,
        isComplex, isBoolean, isNumeric, isInteger, isFloat, isString]
  · intro f c ty t tn c' hu h64 htn hjs
    rw [zeroValue, if_neg (by simp [hjs]), hu]
    simp [h64, htn]
  · intro f c ty ps rs v hu hjs
    rw [zeroValue, if_neg (by simp [hjs]), hu]
  · intro f c ty k v hu hjs
    rw [zeroValue, if_neg (by simp [hjs]), hu]
  · intro f c ty ms hu hjs
    rw [zeroValue, if_neg (by simp [hjs]), hu]
  · intro f c ty e tn c' hu htn hjs
    rw [zeroValue, if_neg (by simp [hjs]), hu]
    simp [htn]
  · intro f c ty e tn c' hu htn hjs
    rw [zeroValue, if_neg (by simp [hjs]), hu]
    simp [htn]
  · intro f c ty e tn c' hu htn hjs
    rw [zeroValue, if_neg (by simp [hjs]), hu]
    simp [htn]
  · intro f c ty n e tn c' hu htn hjs
    rw [zeroValue, if_neg (by simp [hjs]), hu]
    simp [htn]
  · intro f c ty fs tn c' hu htn hjs
    rw [zeroValue, if_neg (by simp [hjs]), hu]
    simp [htn]

/-- Witness for `zeroValue_dispatch` at concrete types: booleans zero to
`false`, `int64` zeroes to `new $Int64(0, 0)`, untyped nil panics. -/
theorem zeroValue_dispatch_witness :
    zeroValue 1 emptyCtx (.basic .bool) = some (.ok ([102, 97, 108, 115, 101], emptyCtx)) ∧
    zeroValue 1 emptyCtx (.basic .int64) =
      some (.ok ([110, 101, 119, 32] ++ ([36] ++ [73, 110, 116, 54, 52]) ++
        [40, 48, 44, 32, 48, 41], emptyCtx)) ∧
    zeroValue 1 emptyCtx (.basic .untypedNil) =
      some (.error [90, 101, 114, 111, 32, 118, 97, 108, 117, 101, 32, 102, 111,
        114, 32, 117, 110, 116, 121, 112, 101, 100, 32, 110, 105, 108, 46]) := by
  refine ⟨?_, ?_, ?_⟩
  · exact zeroValue_dispatch.2.2.2.2.1 1 emptyCtx (.basic .bool) .bool rfl rfl
  · exact zeroValue_dispatch.2.2.2.2.2.2.2.1 1 emptyCtx (.basic .int64) .int64
      ([36] ++ [73, 110, 116, 54, 52]) emptyCtx rfl rfl (by decide) rfl
  · exact zeroValue_dispatch.2.1 1 emptyCtx (.basic .untypedNil) rfl

/-! ### C3: memoization and injectivity of anonymous type descriptors -/

/-- The types that take `typeName`'s anonymous-registration path. -/
def isAnonPath : Ty → Bool
  | .basic _ => false
  | .named _ _ => false
  | t => !isEmptyInterface t

theorem typeNameF_anon (f : Nat) (c : Ctx) {ty : Ty} (h : isAnonPath ty = true) :
    typeNameF (f + 1) c ty = anonBranch (typeNameF f) c ty := by
  cases ty with
  | basic t => simp [isAnonPath] at h
  | named o u => simp [isAnonPath] at h
  | interface ms =>
    have he : isEmptyInterface (.interface ms) = false := by
      simpa [isAnonPath] using h
    simp only [typeNameF, he, Bool.false_eq_true, if_false]
  | array n e => rfl
  | slice e => rfl
  | map k v => rfl
  | struct fs => rfl
  | signature ps rs v => rfl
  | pointer e => rfl
  | chan e => rfl

theorem alookup_cons_same {α β : Type} [DecidableEq α] (r : List (α × β)) (k : α) (v : β) :
    alookup ((k, v) :: r) k = some v := by
  simp [alookup]

theorem alookup_some_mem {α β : Type} [DecidableEq α] :
    ∀ {m : List (α × β)} {k : α} {v : β}, alookup m k = some v → (k, v) ∈ m := by
  intro m
  induction m with
  | nil => intro k v h; simp [alookup] at h
  | cons p r ih =>
    intro k v h
    obtain ⟨k0, v0⟩ := p
    by_cases e : k0 = k
    · subst e
      rw [alookup_cons_same] at h
      simp only [Option.some.injEq] at h
      simp [h]
    · simp only [alookup, if_neg e] at h
      simp [ih h]

theorem alookup_none_not_mem {α β : Type} [DecidableEq α] :
    ∀ {m : List (α × β)} {k : α}, alookup m k = none → ∀ v, (k, v) ∉ m := by
  intro m
  induction m with
  | nil => intro k _ v; simp
  | cons p r ih =>
    intro k h v
    obtain ⟨k0, v0⟩ := p
    by_cases e : k0 = k
    · subst e
      rw [alookup_cons_same] at h
      simp at h
    · simp only [alookup, if_neg e] at h
      intro hm
      rcases List.mem_cons.mp hm with heq | hm2
      · exact e (by injection heq with h1 h2; rw [h1])
      · exact ih h v hm2

theorem mem_addDep (d : Dep) (deps : List Dep) : d ∈ addDep d deps := by
  by_cases h : d ∈ deps <;> simp [addDep, h]

/-- First resolution leaves the memo entry; any later resolution of the same
shape finds it, returns the identical name, and re-registers the same
dependency. -/
theorem anonBranch_memo {rec : Ctx → Ty → Option (Name × Ctx)} {c : Ctx} {ty : Ty}
    {nm : Name} {c' : Ctx} (h : anonBranch rec c ty = some (nm, c')) :
    alookup c'.p.anonTypeMap ty = some nm ∧
    Dep.anon nm ∈ c'.p.dependencies ∧
    ∀ rec2, anonBranch rec2 c' ty =
      some (nm, { c' with p := { c'.p with
        dependencies := addDep (.anon nm) c'.p.dependencies } }) := by
  unfold anonBranch at h
  cases hl : alookup c.p.anonTypeMap ty with
  | some nm0 =>
    rw [hl] at h
    simp only [Option.some.injEq, Prod.mk.injEq] at h
    obtain ⟨rfl, rfl⟩ := h
    refine ⟨hl, mem_addDep _ _, fun rec2 => ?_⟩
    unfold anonBranch
    rw [show alookup ({ c with p := { c.p with
        dependencies := addDep (.anon nm0) c.p.dependencies } } : Ctx).p.anonTypeMap ty =
      some nm0 from hl]
  | none =>
    rw [hl] at h
    dsimp only at h
    cases hf : (components ty).foldlM (fun cc t => (rec cc t).map Prod.snd) c with
    | none => rw [hf] at h; simp at h
    | some c1 =>
      rw [hf] at h
      dsimp only at h
      cases ha : newVariableWithLevel c1.p.minify c1.self c1.parents (anonBase ty) true with
      | none => rw [ha] at h; simp at h
      | some r =>
        obtain ⟨varName, self', parents'⟩ := r
        rw [ha] at h
        dsimp only at h
        simp only [Option.some.injEq, Prod.mk.injEq] at h
        rcases h with ⟨h12, hc⟩
        subst hc
        subst h12
        refine ⟨alookup_cons_same _ _ _, mem_addDep _ _, fun rec2 => ?_⟩
        unfold anonBranch
        rw [show alookup ({ c1 with
            self := self'
            parents := parents'
            p := { c1.p with
              anonTypes := c1.p.anonTypes ++ [(ty, varName)]
              anonTypeMap := (ty, varName) :: c1.p.anonTypeMap
              dependencies := addDep (.anon varName) c1.p.dependencies } } : Ctx).p.anonTypeMap ty =
          some varName from alookup_cons_same _ _ _]

theorem newVar_plain_pkg (self : FuncScope) (parents : List FuncScope)
    (nm : Name) (h : nm ≠ []) :
    newVariableWithLevel false self parents nm true =
      some (mkName (sanitize nm) (getCount self.allVars (sanitize nm)),
        ⟨setCount self.allVars (sanitize nm) (getCount self.allVars (sanitize nm) + 1),
         self.localVars⟩,
        parents.map fun s => ⟨setCount s.allVars (sanitize nm)
          (getCount self.allVars (sanitize nm) + 1), s.localVars⟩) := by
  simp [newVariableWithLevel, h]

/-- Any successful allocation bumps exactly one base count in the receiving
scope. -/
theorem newVar_shape {m : Bool} {self : FuncScope} {parents : List FuncScope}
    {nm : Name} {lvl : Bool} {v : Name} {self' : FuncScope} {parents' : List FuncScope}
    (h : newVariableWithLevel m self parents nm lvl = some (v, self', parents')) :
    ∃ base, self'.allVars =
      setCount self.allVars base (getCount self.allVars base + 1) := by
  by_cases he : nm = []
  · simp [newVariableWithLevel, he] at h
  · cases m with
    | false =>
      cases lvl with
      | false =>
        rw [newVar_plain_local self parents nm he] at h
        simp only [Option.some.injEq, Prod.mk.injEq] at h
        exact ⟨sanitize nm, by rw [← h.2.1]⟩
      | true =>
        rw [newVar_plain_pkg self parents nm he] at h
        simp only [Option.some.injEq, Prod.mk.injEq] at h
        exact ⟨sanitize nm, by rw [← h.2.1]⟩
    | true =>
      cases lvl with
      | false =>
        cases hff : findFree self.allVars 97 0 (minFuel self.allVars) with
        | none => simp [newVariableWithLevel, he, hff] at h
        | some i =>
          simp only [newVariableWithLevel, he, hff, if_neg he, Bool.false_eq_true,
            if_true, if_false, ite_false, ite_true, Option.some.injEq,
            Prod.mk.injEq] at h
          exact ⟨encB26 97 i, by rw [← h.2.1]⟩
      | true =>
        cases hff : findFree self.allVars 65 0 (minFuel self.allVars) with
        | none => simp [newVariableWithLevel, he, hff] at h
        | some i =>
          simp only [newVariableWithLevel, he, hff, if_neg he, Bool.false_eq_true,
            if_true, if_false, ite_false, ite_true, Option.some.injEq,
            Prod.mk.injEq] at h
          exact ⟨encB26 65 i, by rw [← h.2.1]⟩

theorem newVar_count_mono {m : Bool} {self : FuncScope} {parents : List FuncScope}
    {nm : Name} {lvl : Bool} {v : Name} {self' : FuncScope} {parents' : List FuncScope}
    (h : newVariableWithLevel m self parents nm lvl = some (v, self', parents')) :
    ∀ b, getCount self.allVars b ≤ getCount self'.allVars b := by
  obtain ⟨base, hb⟩ := newVar_shape h
  intro b
  rw [hb]
  by_cases e : base = b
  · rw [← e, getCount_setCount_same]; omega
  · rw [getCount_setCount_ne _ _ e]

/-- A plain-mode allocation returns a name the registry had not produced
before, and records it as produced. -/
theorem newVar_plain_value {self : FuncScope} {parents : List FuncScope}
    {nm : Name} {lvl : Bool} {v : Name} {self' : FuncScope} {parents' : List FuncScope}
    (h : newVariableWithLevel false self parents nm lvl = some (v, self', parents')) :
    ¬ AllocatedIn self.allVars v ∧ AllocatedIn self'.allVars v := by
  by_cases he : nm = []
  · simp [newVariableWithLevel, he] at h
  · have hv : v = mkName (sanitize nm) (getCount self.allVars (sanitize nm)) ∧
        self'.allVars = setCount self.allVars (sanitize nm)
          (getCount self.allVars (sanitize nm) + 1) := by
      cases lvl with
      | false =>
        rw [newVar_plain_local self parents nm he] at h
        simp only [Option.some.injEq, Prod.mk.injEq] at h
        exact ⟨h.1.symm, by rw [← h.2.1]⟩
      | true =>
        rw [newVar_plain_pkg self parents nm he] at h
        simp only [Option.some.injEq, Prod.mk.injEq] at h
        exact ⟨h.1.symm, by rw [← h.2.1]⟩
    obtain ⟨rfl, hs⟩ := hv
    constructor
    · rintro ⟨b', n', hg', ho', hn'⟩
      have hinj := mkName_inj (dollar_not_mem_sanitize nm)
        (dollar_not_mem_of_all_good hg') ho'
      rw [← hinj.1, ← hinj.2] at hn'
      omega
    · refine ⟨sanitize nm, getCount self.allVars (sanitize nm),
        sanitize_all_good nm, rfl, ?_⟩
      rw [hs, getCount_setCount_same]
      omega

/-- A successful counter search lands on a base with count zero. -/
theorem findFree_free {ρ : List (Name × Nat)} {offset : Nat} :
    ∀ {fuel i j : Nat}, findFree ρ offset i fuel = some j →
      getCount ρ (encB26 offset j) = 0 := by
  intro fuel
  induction fuel with
  | zero => intro i j h; simp [findFree] at h
  | succ fuel ih =>
    intro i j h
    by_cases h0 : getCount ρ (encB26 offset i) = 0
    · simp only [findFree, h0, if_pos, if_true, Option.some.injEq] at h
      rw [← h]
      exact h0
    · simp only [findFree, h0, if_false, ite_false] at h
      exact ih h

/-- Every byte of a base-26 name lies in the 26-letter window at the
offset. -/
theorem encB26Aux_mem (offset : Nat) :
    ∀ fuel j b, b ∈ encB26Aux fuel offset j → offset ≤ b ∧ b < offset + 26 := by
  intro fuel
  induction fuel with
  | zero => intro j b h; simp [encB26Aux] at h
  | succ fuel ih =>
    intro j b h
    by_cases hj : j < 26
    · simp only [encB26Aux, if_pos hj, List.mem_singleton] at h
      omega
    · simp only [encB26Aux, if_neg hj, List.mem_append, List.mem_singleton] at h
      rcases h with h | h
      · exact ih _ b h
      · have : j % 26 < 26 := Nat.mod_lt _ (by omega)
        omega

theorem encB26_mem {offset j b : Nat} (h : b ∈ encB26 offset j) :
    offset ≤ b ∧ b < offset + 26 :=
  encB26Aux_mem offset (j + 1) j b h

theorem encB26_all_good {offset j : Nat} (h1 : 48 ≤ offset)
    (h2 : offset + 26 ≤ 123) : (encB26 offset j).all goodByte = true := by
  rw [List.all_eq_true]
  intro b hb
  have := encB26_mem hb
  rw [goodByte_iff]
  omega

theorem dollar_not_mem_encB26 {offset j : Nat} (h : 48 ≤ offset) :
    36 ∉ encB26 offset j := by
  intro hm
  have := encB26_mem hm
  omega

/-- In either mode, an allocation returns a name the registry had not
produced before, and records it as produced: in plain mode by the `$<n>`
counter suffix, in minified mode because the counter search only accepts a
base-26 name whose count is still zero. -/
theorem newVar_value {m : Bool} {self : FuncScope} {parents : List FuncScope}
    {nm : Name} {lvl : Bool} {v : Name} {self' : FuncScope} {parents' : List FuncScope}
    (h : newVariableWithLevel m self parents nm lvl = some (v, self', parents')) :
    ¬ AllocatedIn self.allVars v ∧ AllocatedIn self'.allVars v := by
  by_cases he : nm = []
  · simp [newVariableWithLevel, he] at h
  · cases m with
    | false => exact newVar_plain_value h
    | true =>
      have main : ∀ (off : Nat), 48 ≤ off → off + 26 ≤ 123 →
          ∀ {i : Nat}, getCount self.allVars (encB26 off i) = 0 →
          v = mkName (encB26 off i) (getCount self.allVars (encB26 off i)) →
          self'.allVars = setCount self.allVars (encB26 off i)
            (getCount self.allVars (encB26 off i) + 1) →
          ¬ AllocatedIn self.allVars v ∧ AllocatedIn self'.allVars v := by
        intro off hoff1 hoff2 i hfree hv hsv
        rw [hfree] at hv
        constructor
        · rintro ⟨b', n', hg', ho', hn'⟩
          have hinj := mkName_inj (dollar_not_mem_encB26 hoff1)
            (dollar_not_mem_of_all_good hg') (hv ▸ ho')
          rw [← hinj.1, ← hinj.2] at hn'
          rw [hfree] at hn'
          omega
        · refine ⟨encB26 off i, 0, encB26_all_good hoff1 hoff2, hv, ?_⟩
          rw [hsv, hfree, getCount_setCount_same]
          omega
      cases lvl with
      | false =>
        cases hff : findFree self.allVars 97 0 (minFuel self.allVars) with
        | none => simp [newVariableWithLevel, he, hff] at h
        | some i =>
          simp only [newVariableWithLevel, he, hff, if_neg he, Bool.false_eq_true,
            if_true, if_false, ite_false, ite_true, Option.some.injEq,
            Prod.mk.injEq] at h
          exact main 97 (by omega) (by omega) (findFree_free hff) h.1.symm
            (by rw [← h.2.1])
      | true =>
        cases hff : findFree self.allVars 65 0 (minFuel self.allVars) with
        | none => simp [newVariableWithLevel, he, hff] at h
        | some i =>
          simp only [newVariableWithLevel, he, hff, if_neg he, Bool.false_eq_true,
            if_true, if_false, ite_false, ite_true, Option.some.injEq,
            Prod.mk.injEq] at h
          exact main 65 (by omega) (by omega) (findFree_free hff) h.1.symm
            (by rw [← h.2.1])

/-- The structural-size bound justifying that a type's components never
include the type itself. -/
theorem mem_types_sizeOf : ∀ {fs : Fields} {t : Ty}, t ∈ fs.types → sizeOf t < sizeOf fs
  | .nil, t, h => by simp [Fields.types] at h
  | .cons nm ty tg tl, t, h => by
    simp only [Fields.types, List.mem_cons] at h
    rcases h with rfl | h
    · simp only [Fields.cons.sizeOf_spec]; omega
    · have := mem_types_sizeOf h
      simp only [Fields.cons.sizeOf_spec]; omega

theorem mem_toList_sizeOf : ∀ {l : TyList} {t : Ty}, t ∈ l.toList → sizeOf t < sizeOf l
  | .nil, t, h => by simp [TyList.toList] at h
  | .cons hd tl, t, h => by
    simp only [TyList.toList, List.mem_cons] at h
    rcases h with rfl | h
    · simp only [TyList.cons.sizeOf_spec]; omega
    · have := mem_toList_sizeOf h
      simp only [TyList.cons.sizeOf_spec]; omega

theorem components_sizeOf : ∀ {ty t : Ty}, t ∈ components ty → sizeOf t < sizeOf ty := by
  intro ty t h
  cases ty with
  | basic k => simp [components] at h
  | named o u => simp [components] at h
  | interface ms => simp [components] at h
  | array n e =>
    simp only [components, List.mem_singleton] at h
    subst h; simp only [Ty.array.sizeOf_spec]; omega
  | slice e =>
    simp only [components, List.mem_singleton] at h
    subst h; simp only [Ty.slice.sizeOf_spec]; omega
  | pointer e =>
    simp only [components, List.mem_singleton] at h
    subst h; simp only [Ty.pointer.sizeOf_spec]; omega
  | chan e =>
    simp only [components, List.mem_singleton] at h
    subst h; simp only [Ty.chan.sizeOf_spec]; omega
  | map k v =>
    simp only [components, List.mem_cons] at h
    rcases h with rfl | rfl | h
    · simp only [Ty.map.sizeOf_spec]; omega
    · simp only [Ty.map.sizeOf_spec]; omega
    · simp at h
  | struct fs =>
    simp only [components] at h
    have := mem_types_sizeOf h
    simp only [Ty.struct.sizeOf_spec]; omega
  | signature ps rs v =>
    simp only [components, List.mem_append] at h
    rcases h with h | h
    · have := mem_toList_sizeOf h
      simp only [Ty.signature.sizeOf_spec]; omega
    · have := mem_toList_sizeOf h
      simp only [Ty.signature.sizeOf_spec]; omega

/-- The resolver's invariant, in either minification mode: the memo table
has pairwise distinct shapes and pairwise distinct names, and every
memoized name was produced by the receiving scope's registry. -/
def CtxInv (c : Ctx) : Prop :=
  (c.p.anonTypeMap.map Prod.fst).Nodup ∧
  (c.p.anonTypeMap.map Prod.snd).Nodup ∧
  ∀ e ∈ c.p.anonTypeMap, AllocatedIn c.self.allVars e.2

theorem CtxInv_of_eq {c c' : Ctx} (hInv : CtxInv c)
    (hmap : c'.p.anonTypeMap = c.p.anonTypeMap)
    (hcount : ∀ b, getCount c.self.allVars b ≤ getCount c'.self.allVars b) :
    CtxInv c' := by
  obtain ⟨h2, h3, h4⟩ := hInv
  refine ⟨by rw [hmap]; exact h2, by rw [hmap]; exact h3, ?_⟩
  intro e he
  rw [hmap] at he
  exact AllocatedIn_mono hcount (h4 e he)

theorem objectName_pres {c : Ctx} {o : Obj} {nm : Name} {c' : Ctx}
    (h : objectName c o = some (nm, c')) :
    c'.p.anonTypeMap = c.p.anonTypeMap ∧ c'.p.minify = c.p.minify ∧
    (∀ b, getCount c.self.allVars b ≤ getCount c'.self.allVars b) := by
  unfold objectName at h
  set cd : Ctx := if ¬o.samePkg = true ∨ o.pkgScope = true then
      { c with p := { c.p with dependencies := addDep (.obj o.id) c.p.dependencies } }
    else c with hcd
  have hcdfacts : cd.p.anonTypeMap = c.p.anonTypeMap ∧ cd.p.minify = c.p.minify ∧
      cd.self = c.self := by
    rw [hcd]; split <;> exact ⟨rfl, rfl, rfl⟩
  by_cases h1 : ¬o.samePkg = true
  · rw [if_pos h1] at h
    simp only [Option.some.injEq, Prod.mk.injEq] at h
    rw [← h.2]
    exact ⟨hcdfacts.1, hcdfacts.2.1, by rw [hcdfacts.2.2]; exact fun b => le_refl _⟩
  · rw [if_neg h1] at h
    by_cases h2 : o.isVarOrConst = true ∧ o.exported = true ∧ o.pkgScope = true
    · rw [if_pos h2] at h
      simp only [Option.some.injEq, Prod.mk.injEq] at h
      rw [← h.2]
      exact ⟨hcdfacts.1, hcdfacts.2.1, by rw [hcdfacts.2.2]; exact fun b => le_refl _⟩
    · rw [if_neg h2] at h
      dsimp only at h
      cases hl : alookup cd.p.objectNames o.id with
      | some nm0 =>
        rw [hl] at h
        dsimp only at h
        split at h <;> simp only [Option.some.injEq, Prod.mk.injEq] at h <;>
          rw [← h.2] <;>
          exact ⟨hcdfacts.1, hcdfacts.2.1, by rw [hcdfacts.2.2]; exact fun b => le_refl _⟩
      | none =>
        rw [hl] at h
        dsimp only at h
        cases ha : newVariableWithLevel cd.p.minify cd.self cd.parents o.name o.pkgScope with
        | none => rw [ha] at h; simp at h
        | some r =>
          obtain ⟨nm1, self', parents'⟩ := r
          rw [ha] at h
          dsimp only at h
          have hmono := newVar_count_mono ha
          split at h <;> simp only [Option.some.injEq, Prod.mk.injEq] at h <;>
            rw [← h.2] <;>
            refine ⟨hcdfacts.1, hcdfacts.2.1, fun b => ?_⟩ <;>
            · rw [show cd.self = c.self from hcdfacts.2.2] at hmono
              exact hmono b

theorem alookup_cons_ne {α β : Type} [DecidableEq α] (m : List (α × β)) (k0 k : α)
    (v0 : β) (h : k0 ≠ k) : alookup ((k0, v0) :: m) k = alookup m k := by
  simp [alookup, h]

theorem mem_keys {α β : Type} [DecidableEq α] {m : List (α × β)} {k : α} {v : β}
    (h : (k, v) ∈ m) : k ∈ m.map Prod.fst :=
  List.mem_map.mpr ⟨(k, v), h, rfl⟩

theorem exists_of_mem_keys {α β : Type} [DecidableEq α] {m : List (α × β)} {k : α}
    (h : k ∈ m.map Prod.fst) : ∃ v, (k, v) ∈ m := by
  rcases List.mem_map.mp h with ⟨e, he, hek⟩
  exact ⟨e.2, by rw [← hek]; exact he⟩

/-- What one step of the resolver preserves: the invariant, every existing
memo binding, registry counts, and a size bound on any key it adds. -/
def Pres (c c' : Ctx) (ty : Ty) : Prop :=
  CtxInv c' ∧
  (∀ k v, alookup c.p.anonTypeMap k = some v → alookup c'.p.anonTypeMap k = some v) ∧
  (∀ b, getCount c.self.allVars b ≤ getCount c'.self.allVars b) ∧
  (∀ k, k ∈ c'.p.anonTypeMap.map Prod.fst →
    k ∈ c.p.anonTypeMap.map Prod.fst ∨ sizeOf k ≤ sizeOf ty)

theorem pres_refl {c : Ctx} {ty : Ty} (hInv : CtxInv c) : Pres c c ty :=
  ⟨hInv, fun _ _ h => h, fun _ => le_refl _, fun _ hk => Or.inl hk⟩

theorem fold_pres (f : Nat)
    (ih : ∀ {c : Ctx} {ty : Ty} {nm : Name} {c' : Ctx}, CtxInv c →
      typeNameF f c ty = some (nm, c') → Pres c c' ty) :
    ∀ (ts : List Ty) {c c1 : Ctx}, CtxInv c →
      ts.foldlM (fun cc t => (typeNameF f cc t).map Prod.snd) c = some c1 →
      CtxInv c1 ∧
      (∀ k v, alookup c.p.anonTypeMap k = some v →
        alookup c1.p.anonTypeMap k = some v) ∧
      (∀ b, getCount c.self.allVars b ≤ getCount c1.self.allVars b) ∧
      (∀ k, k ∈ c1.p.anonTypeMap.map Prod.fst →
        k ∈ c.p.anonTypeMap.map Prod.fst ∨ ∃ t ∈ ts, sizeOf k ≤ sizeOf t) := by
  intro ts
  induction ts with
  | nil =>
    intro c c1 hInv hf
    simp only [List.foldlM, pure, Option.some.injEq] at hf
    subst hf
    exact ⟨hInv, fun _ _ h => h, fun _ => le_refl _, fun _ hk => Or.inl hk⟩
  | cons t rest ihl =>
    intro c c1 hInv hf
    rw [List.foldlM_cons] at hf
    cases hx : typeNameF f c t with
    | none => rw [hx] at hf; simp at hf
    | some r =>
      rw [hx] at hf
      obtain ⟨nm0, cmid⟩ := r
      simp only [Option.map_some', Option.some_bind] at hf
      obtain ⟨hI0, hl0, hc0, hk0⟩ := ih hInv hx
      obtain ⟨hI1, hl1, hc1, hk1⟩ := ihl hI0 hf
      refine ⟨hI1, fun k v hh => hl1 k v (hl0 k v hh),
        fun b => le_trans (hc0 b) (hc1 b), ?_⟩
      intro k hk
      rcases hk1 k hk with hkc | ⟨t2, ht2, hsz⟩
      · rcases hk0 k hkc with h' | hsz'
        · exact Or.inl h'
        · exact Or.inr ⟨t, List.mem_cons_self t rest, hsz'⟩
      · exact Or.inr ⟨t2, List.mem_cons_of_mem t ht2, hsz⟩

/-- Every `typeNameF` step preserves the invariant, existing memo bindings
and counts, and adds only keys bounded by the resolved type. -/
theorem typeNameF_pres : ∀ (f : Nat) {c : Ctx} {ty : Ty} {nm : Name} {c' : Ctx},
    CtxInv c → typeNameF f c ty = some (nm, c') → Pres c c' ty := by
  intro f
  induction f with
  | zero => intro c ty nm c' _ h; simp [typeNameF] at h
  | succ f ih =>
    intro c ty nm c' hInv h
    by_cases hanon : isAnonPath ty = true
    · rw [typeNameF_anon f c hanon] at h
      unfold anonBranch at h
      cases hl : alookup c.p.anonTypeMap ty with
      | some nm0 =>
        rw [hl] at h
        simp only [Option.some.injEq, Prod.mk.injEq] at h
        obtain ⟨h1, h2⟩ := h
        subst h2
        exact ⟨CtxInv_of_eq hInv rfl (fun _ => le_refl _),
          fun _ _ hh => hh, fun _ => le_refl _, fun _ hk => Or.inl hk⟩
      | none =>
        rw [hl] at h
        dsimp only at h
        cases hf : (components ty).foldlM
            (fun cc t => (typeNameF f cc t).map Prod.snd) c with
        | none => rw [hf] at h; simp at h
        | some c1 =>
          rw [hf] at h
          dsimp only at h
          obtain ⟨hInv1, hlook1, hcnt1, hkeys1⟩ :=
            fold_pres f (fun hI hh => ih hI hh) (components ty) hInv hf
          have hty_not_in_c1 : ty ∉ c1.p.anonTypeMap.map Prod.fst := by
            intro hk
            rcases hkeys1 ty hk with hkc | ⟨t, ht, hsz⟩
            · obtain ⟨v, hv⟩ := exists_of_mem_keys hkc
              exact alookup_none_not_mem hl v hv
            · exact absurd hsz (by have := components_sizeOf ht; omega)
          cases ha : newVariableWithLevel c1.p.minify c1.self c1.parents
              (anonBase ty) true with
          | none => rw [ha] at h; simp at h
          | some r =>
            obtain ⟨varName, self', parents'⟩ := r
            rw [ha] at h
            dsimp only at h
            simp only [Option.some.injEq, Prod.mk.injEq] at h
            rcases h with ⟨h12, hc⟩
            subst hc
            subst h12
            obtain ⟨hfresh, halloc⟩ := newVar_value ha
            have hcntA := newVar_count_mono ha
            have hval : varName ∉ c1.p.anonTypeMap.map Prod.snd := by
              intro hv
              rcases List.mem_map.mp hv with ⟨e, he, hev⟩
              exact hfresh (hev ▸ hInv1.2.2 e he)
            refine ⟨⟨List.nodup_cons.mpr ⟨hty_not_in_c1, hInv1.1⟩,
              List.nodup_cons.mpr ⟨hval, hInv1.2.1⟩, ?_⟩, ?_, ?_, ?_⟩
            · intro e he
              rcases List.mem_cons.mp he with rfl | he2
              · exact halloc
              · exact AllocatedIn_mono hcntA (hInv1.2.2 e he2)
            · intro k v hh
              have h1 := hlook1 k v hh
              have hkne : ty ≠ k :=
                fun e => hty_not_in_c1 (e ▸ mem_keys (alookup_some_mem h1))
              show alookup ((ty, varName) :: c1.p.anonTypeMap) k = some v
              rw [alookup_cons_ne _ _ _ _ hkne]
              exact h1
            · exact fun b => le_trans (hcnt1 b) (hcntA b)
            · intro k hk
              rcases (show k = ty ∨ k ∈ c1.p.anonTypeMap.map Prod.fst from
                  List.mem_cons.mp hk) with rfl | hk2
              · exact Or.inr (le_refl _)
              · rcases hkeys1 k hk2 with hkc | ⟨t, ht, hsz⟩
                · exact Or.inl hkc
                · exact Or.inr (le_of_lt (lt_of_le_of_lt hsz (components_sizeOf ht)))
    · cases ty with
      | basic t =>
        rw [show typeNameF (f + 1) c (.basic t) =
            some ([36] ++ toJavaScriptType t, c) from rfl] at h
        simp only [Option.some.injEq, Prod.mk.injEq] at h
        obtain ⟨-, h2⟩ := h
        subst h2
        exact pres_refl hInv
      | named o u =>
        rw [show typeNameF (f + 1) c (.named o u) =
            (if o.name = [101, 114, 114, 111, 114] then
              some ([36, 101, 114, 114, 111, 114], c)
            else objectName c o) from rfl] at h
        by_cases he : o.name = [101, 114, 114, 111, 114]
        · rw [if_pos he] at h
          simp only [Option.some.injEq, Prod.mk.injEq] at h
          obtain ⟨-, h2⟩ := h
          subst h2
          exact pres_refl hInv
        · rw [if_neg he] at h
          obtain ⟨hm, hmin, hcnt⟩ := objectName_pres h
          refine ⟨CtxInv_of_eq hInv hm hcnt, ?_, hcnt, ?_⟩
          · intro k v hh
            rw [hm]
            exact hh
          · intro k hk
            rw [hm] at hk
            exact Or.inl hk
      | interface ms =>
        cases ms with
        | cons m mt => exact absurd rfl hanon
        | nil =>
          rw [show typeNameF (f + 1) c (.interface .nil) =
              some ([36, 101, 109, 112, 116, 121, 73, 110, 116, 101, 114, 102,
                97, 99, 101], c) from rfl] at h
          simp only [Option.some.injEq, Prod.mk.injEq] at h
          obtain ⟨-, h2⟩ := h
          subst h2
          exact pres_refl hInv
      | array n e => exact absurd rfl hanon
      | slice e => exact absurd rfl hanon
      | map k v => exact absurd rfl hanon
      | struct fs => exact absurd rfl hanon
      | signature ps rs v => exact absurd rfl hanon
      | pointer e => exact absurd rfl hanon
      | chan e => exact absurd rfl hanon

/-- C3: resolving an anonymous (structural) type through `typeName` memoizes
the descriptor on first encounter, keyed by structural equality: afterwards
the memo table binds the type to its name, the dependency on the synthetic
entry is registered, and resolving the same shape again returns the identical
name while only re-registering the same dependency; and under the resolver
invariant — which constrains only the memo table and registry, so it holds
for a fresh context in either minification mode — two structurally distinct
anonymous types resolved in sequence never receive the same descriptor
name. -/
theorem typeName_memoized_injective :
    (∀ (c : Ctx) (ty : Ty) (nm : Name) (c' : Ctx), isAnonPath ty = true →
      typeName c ty = some (nm, c') →
      alookup c'.p.anonTypeMap ty = some nm ∧
      Dep.anon nm ∈ c'.p.dependencies ∧
      typeName c' ty = some (nm, { c' with p := { c'.p with
        dependencies := addDep (.anon nm) c'.p.dependencies } })) ∧
    (∀ (c : Ctx) (ty1 ty2 : Ty) (nm1 nm2 : Name) (c1 c2 : Ctx), CtxInv c →
      isAnonPath ty1 = true → isAnonPath ty2 = true → ty1 ≠ ty2 →
      typeName c ty1 = some (nm1, c1) → typeName c1 ty2 = some (nm2, c2) →
      nm1 ≠ nm2) := by
  constructor
  · intro c ty nm c' hanon h
    unfold typeName at h
    rw [typeNameF_anon (tyDepth ty) c hanon] at h
    obtain ⟨m1, m2, m3⟩ := anonBranch_memo h
    refine ⟨m1, m2, ?_⟩
    unfold typeName
    rw [typeNameF_anon (tyDepth ty) c' hanon]
    exact m3 (typeNameF (tyDepth ty))
  · intro c ty1 ty2 nm1 nm2 c1 c2 hInv ha1 ha2 hne h1 h2 heq
    unfold typeName at h1 h2
    have h1' : anonBranch (typeNameF (tyDepth ty1)) c ty1 = some (nm1, c1) := by
      rw [← typeNameF_anon (tyDepth ty1) c ha1]
      exact h1
    have h2' : anonBranch (typeNameF (tyDepth ty2)) c1 ty2 = some (nm2, c2) := by
      rw [← typeNameF_anon (tyDepth ty2) c1 ha2]
      exact h2
    have m1 := (anonBranch_memo h1').1
    have m2 := (anonBranch_memo h2').1
    have pres1 := typeNameF_pres (tyDepth ty1 + 1) hInv h1
    have pres2 := typeNameF_pres (tyDepth ty2 + 1) pres1.1 h2
    have m1' : alookup c2.p.anonTypeMap ty1 = some nm1 := pres2.2.1 ty1 nm1 m1
    have e1 : (ty1, nm1) ∈ c2.p.anonTypeMap := alookup_some_mem m1'
    have e2 : (ty2, nm2) ∈ c2.p.anonTypeMap := alookup_some_mem m2
    have hpair := List.inj_on_of_nodup_map pres2.1.2.1 e1 e2
      (show (ty1, nm1).2 = (ty2, nm2).2 from heq)
    exact hne (congrArg Prod.fst hpair)

/-- A concrete anonymous slice type resolved from the empty context. -/
def c3ty1 : Ty := .slice (.basic .int)

/-- A concrete anonymous pointer type, structurally distinct from `c3ty1`. -/
def c3ty2 : Ty := .pointer (.basic .int)

/-- Name and context produced by the first resolution. -/
def c3r1 : Name × Ctx := (typeName emptyCtx c3ty1).getD ([], emptyCtx)

/-- Name and context produced by the second resolution, of the other type. -/
def c3r2 : Name × Ctx := (typeName c3r1.2 c3ty2).getD ([], emptyCtx)

/-- A fresh unit context with minification on. -/
def emptyCtxMin : Ctx := ⟨⟨true, [], [], [], [], [], []⟩, emptyScope, []⟩

/-- The same first resolution, in minified mode. -/
def c3m1 : Name × Ctx := (typeName emptyCtxMin c3ty1).getD ([], emptyCtxMin)

/-- The same second resolution, in minified mode. -/
def c3m2 : Name × Ctx := (typeName c3m1.2 c3ty2).getD ([], emptyCtxMin)

theorem typeName_memoized_injective_witness :
    (alookup c3r1.2.p.anonTypeMap c3ty1 = some c3r1.1 ∧
     Dep.anon c3r1.1 ∈ c3r1.2.p.dependencies ∧
     typeName c3r1.2 c3ty1 = some (c3r1.1, { c3r1.2 with p := { c3r1.2.p with
       dependencies := addDep (.anon c3r1.1) c3r1.2.p.dependencies } })) ∧
    c3r1.1 ≠ c3r2.1 ∧
    c3m1.1 ≠ c3m2.1 :=
  ⟨typeName_memoized_injective.1 emptyCtx c3ty1 c3r1.1 c3r1.2 (by decide) rfl,
   typeName_memoized_injective.2 emptyCtx c3ty1 c3ty2 c3r1.1 c3r2.1 c3r1.2 c3r2.2
     ⟨List.nodup_nil, List.nodup_nil, fun e he => absurd he (List.not_mem_nil e)⟩
     (by decide) (by decide) (by decide) rfl rfl,
   typeName_memoized_injective.2 emptyCtxMin c3ty1 c3ty2 c3m1.1 c3m2.1 c3m1.2 c3m2.2
     ⟨List.nodup_nil, List.nodup_nil, fun e he => absurd he (List.not_mem_nil e)⟩
     (by decide) (by decide) (by decide) rfl rfl⟩

/-! ### C6: `translateArgs` and left-to-right evaluation order -/

/-- One call argument, after the single-tuple spread prelude: its translated
text (`translateImplicitConversion`, or the cloning variant — both defined
outside this file's source), whether `c.p.Types[argExpr].Value` is non-nil
(a compile-time constant), and whether `c.Blocking[argExpr]` holds. -/
structure ArgInfo where
  trans : Name
  isConst : Bool
  blocking : Bool
deriving DecidableEq, Repr

/-- `strings.Join(..., ", ")`. -/
def joinComma : List Name → Name
  | [] => []
  | [x] => x
  | x :: xs => x ++ [44, 32] ++ joinComma xs

/-- The per-argument loop of `translateArgs`: when order must be preserved
and the argument is not a constant, allocate a fresh `_arg` temporary,
emit the assignment `argVar = arg;`, and use the temporary as the argument
text.  Returns (emitted statements in order, argument texts, scope state). -/
def transArgsLoop (minify preserveOrder : Bool) :
    FuncScope → List FuncScope → List ArgInfo →
    Option (List (Name × Name) × List Name × FuncScope × List FuncScope)
  | self, parents, [] => some ([], [], self, parents)
  | self, parents, a :: rest =>
    if preserveOrder && !a.isConst then
      (newVariableWithLevel minify self parents [95, 97, 114, 103] false).bind
        fun r =>
          (transArgsLoop minify preserveOrder r.2.1 r.2.2 rest).bind
            fun r2 => some ((r.1, a.trans) :: r2.1, r.1 :: r2.2.1, r2.2.2)
  else
      (transArgsLoop minify preserveOrder self parents rest).bind
        fun r2 => some (r2.1, a.trans :: r2.2.1, r2.2.2)

/-- `translateArgs` on spread arguments: `preserveOrder` is set when any
argument after the first is blocking; the loop then rewrites non-constant
arguments through temporaries; a variadic call without `...` packs the
trailing texts into `new <sliceType>([...])` (`varargTypeName` stands for
`c.typeName(varargType)`). -/
def translateArgs (minify : Bool) (self : FuncScope) (parents : List FuncScope)
    (paramsLen : Nat) (variadic ellipsis : Bool) (varargTypeName : Name)
    (args : List ArgInfo) :
    Option (List (Name × Name) × List Name × FuncScope × List FuncScope) :=
  let preserveOrder := (args.drop 1).any fun a => a.blocking
  (transArgsLoop minify preserveOrder self parents args).map
    fun r =>
      if variadic && !ellipsis then
        (r.1, r.2.1.take (paramsLen - 1) ++
          [[110, 101, 119, 32] ++ varargTypeName ++ [40, 91] ++
            joinComma (r.2.1.drop (paramsLen - 1)) ++ [93, 41]], r.2.2)
      else r

theorem transArgsLoop_nil (minify po : Bool) (self : FuncScope)
    (parents : List FuncScope) :
    transArgsLoop minify po self parents [] = some ([], [], self, parents) := rfl

theorem transArgsLoop_cons_skip (minify po : Bool) (self : FuncScope)
    (parents : List FuncScope) (a : ArgInfo) (rest : List ArgInfo)
    (h : (po && !a.isConst) = false) :
    transArgsLoop minify po self parents (a :: rest) =
      (transArgsLoop minify po self parents rest).bind
        fun r2 => some (r2.1, a.trans :: r2.2.1, r2.2.2) := by
  rw [show transArgsLoop minify po self parents (a :: rest) =
    if po && !a.isConst then
      (newVariableWithLevel minify self parents [95, 97, 114, 103] false).bind
        fun r =>
          (transArgsLoop minify po r.2.1 r.2.2 rest).bind
            fun r2 => some ((r.1, a.trans) :: r2.1, r.1 :: r2.2.1, r2.2.2)
    else
      (transArgsLoop minify po self parents rest).bind
        fun r2 => some (r2.1, a.trans :: r2.2.1, r2.2.2) from rfl]
  rw [h]
  simp

theorem transArgsLoop_cons_temp (minify po : Bool) (self : FuncScope)
    (parents : List FuncScope) (a : ArgInfo) (rest : List ArgInfo)
    (h : (po && !a.isConst) = true) :
    transArgsLoop minify po self parents (a :: rest) =
      (newVariableWithLevel minify self parents [95, 97, 114, 103] false).bind
        fun r =>
          (transArgsLoop minify po r.2.1 r.2.2 rest).bind
            fun r2 => some ((r.1, a.trans) :: r2.1, r.1 :: r2.2.1, r2.2.2) := by
  rw [show transArgsLoop minify po self parents (a :: rest) =
    if po && !a.isConst then
      (newVariableWithLevel minify self parents [95, 97, 114, 103] false).bind
        fun r =>
          (transArgsLoop minify po r.2.1 r.2.2 rest).bind
            fun r2 => some ((r.1, a.trans) :: r2.1, r.1 :: r2.2.1, r2.2.2)
    else
      (transArgsLoop minify po self parents rest).bind
        fun r2 => some (r2.1, a.trans :: r2.2.1, r2.2.2) from rfl]
  rw [h]
  simp

/-- With order preservation on, the emitted statements are exactly the
in-order assignments of every non-constant argument's translation; with it
off, nothing is emitted. -/
theorem transArgsLoop_stmts (minify po : Bool) :
    ∀ (args : List ArgInfo) {self : FuncScope} {parents : List FuncScope}
      {stmts : List (Name × Name)} {strs : List Name} {s2 : FuncScope}
      {p2 : List FuncScope},
      transArgsLoop minify po self parents args = some (stmts, strs, s2, p2) →
      (po = true →
        stmts.map Prod.snd = (args.filter fun a => !a.isConst).map ArgInfo.trans) ∧
      (po = false → stmts = []) := by
  intro args
  induction args with
  | nil =>
    intro self parents stmts strs s2 p2 h
    rw [transArgsLoop_nil] at h
    simp only [Option.some.injEq, Prod.mk.injEq] at h
    obtain ⟨rfl, -, -, -⟩ := h
    exact ⟨fun _ => by simp, fun _ => rfl⟩
  | cons a rest ih =>
    intro self parents stmts strs s2 p2 h
    by_cases hc : (po && !a.isConst) = true
    · rw [transArgsLoop_cons_temp minify po self parents a rest hc] at h
      obtain ⟨r, hr, h2⟩ := Option.bind_eq_some.mp h
      obtain ⟨r2, hr2, h3⟩ := Option.bind_eq_some.mp h2
      obtain ⟨v, s', p'⟩ := r
      obtain ⟨rr2, srr2, s2r, p2r⟩ := r2
      simp only [Option.some.injEq, Prod.mk.injEq] at h3
      obtain ⟨rfl, -, -, -⟩ := h3
      obtain ⟨ih1, -⟩ := ih hr2
      have hsplit : po = true ∧ (!a.isConst) = true := by
        simpa [Bool.and_eq_true] using hc
      have hpo : po = true := hsplit.1
      have hnc : (!a.isConst) = true := hsplit.2
      refine ⟨fun _ => ?_, fun hf => absurd hpo (by rw [hf]; exact Bool.false_ne_true)⟩
      simp [List.filter_cons, hnc, ih1 hpo]
    · rw [transArgsLoop_cons_skip minify po self parents a rest
        (Bool.eq_false_iff.mpr hc)] at h
      obtain ⟨r2, hr2, h3⟩ := Option.bind_eq_some.mp h
      obtain ⟨rr2, srr2, s2r, p2r⟩ := r2
      simp only [Option.some.injEq, Prod.mk.injEq] at h3
      obtain ⟨rfl, -, -, -⟩ := h3
      obtain ⟨ih1, ih0⟩ := ih hr2
      constructor
      · intro hpo
        have hconst : (!a.isConst) = false := by
          rw [hpo] at hc
          simp only [Bool.true_and] at hc
          exact Bool.eq_false_iff.mpr hc
        simp [List.filter_cons, hconst, ih1 hpo]
      · exact ih0

/-- In plain mode the allocated temporaries are pairwise distinct. -/
theorem transArgsLoop_temps_nodup (po : Bool) :
    ∀ (args : List ArgInfo) {self : FuncScope} {parents : List FuncScope}
      {stmts : List (Name × Name)} {strs : List Name} {s2 : FuncScope}
      {p2 : List FuncScope},
      transArgsLoop false po self parents args = some (stmts, strs, s2, p2) →
      (stmts.map Prod.fst).Nodup ∧
      (∀ b, getCount self.allVars b ≤ getCount s2.allVars b) ∧
      ∀ t ∈ stmts.map Prod.fst,
        AllocatedIn s2.allVars t ∧ ¬ AllocatedIn self.allVars t := by
  intro args
  induction args with
  | nil =>
    intro self parents stmts strs s2 p2 h
    rw [transArgsLoop_nil] at h
    simp only [Option.some.injEq, Prod.mk.injEq] at h
    obtain ⟨rfl, -, rfl, -⟩ := h
    exact ⟨List.nodup_nil, fun _ => le_refl _, by simp⟩
  | cons a rest ih =>
    intro self parents stmts strs s2 p2 h
    by_cases hc : (po && !a.isConst) = true
    · rw [transArgsLoop_cons_temp false po self parents a rest hc] at h
      obtain ⟨r, hr, h2⟩ := Option.bind_eq_some.mp h
      obtain ⟨r2, hr2, h3⟩ := Option.bind_eq_some.mp h2
      obtain ⟨v, s', p'⟩ := r
      obtain ⟨rr2, srr2, s2r, p2r⟩ := r2
      simp only [Option.some.injEq, Prod.mk.injEq] at h3
      obtain ⟨rfl, -, rfl, -⟩ := h3
      obtain ⟨hfresh, halloc⟩ := newVar_plain_value hr
      have hmono := newVar_count_mono hr
      obtain ⟨ihn, ihm, ihf⟩ := ih hr2
      refine ⟨List.nodup_cons.mpr ⟨?_, ihn⟩,
        fun b => le_trans (hmono b) (ihm b), ?_⟩
      · intro hv
        exact (ihf v hv).2 halloc
      · intro t ht
        rcases List.mem_cons.mp ht with rfl | ht2
        · exact ⟨AllocatedIn_mono ihm halloc, hfresh⟩
        · exact ⟨(ihf t ht2).1, fun hal => (ihf t ht2).2 (AllocatedIn_mono hmono hal)⟩
    · rw [transArgsLoop_cons_skip false po self parents a rest
        (Bool.eq_false_iff.mpr hc)] at h
      obtain ⟨r2, hr2, h3⟩ := Option.bind_eq_some.mp h
      obtain ⟨rr2, srr2, s2r, p2r⟩ := r2
      simp only [Option.some.injEq, Prod.mk.injEq] at h3
      obtain ⟨rfl, -, rfl, -⟩ := h3
      exact ih hr2

/-- C6: in `translateArgs`, when some argument after the first is blocking,
the loop emits, in left-to-right argument order, one temporary assignment
for the translation of every non-constant argument, into pairwise distinct
temporaries (so each earlier argument is captured before any later argument
executes); when no later argument is blocking, no temporary assignment is
emitted; concretely, for three non-constant arguments with the second one
blocking, the first argument is assigned to `_arg` before the second
executes (which is assigned to `_arg$1`). -/
theorem translateArgs_preserve_order :
    (∀ (minify : Bool) (self : FuncScope) (parents : List FuncScope)
      (paramsLen : Nat) (variadic ellipsis : Bool) (varargTypeName : Name)
      (args : List ArgInfo) (stmts : List (Name × Name)) (strs : List Name)
      (s2 : FuncScope) (p2 : List FuncScope),
      translateArgs minify self parents paramsLen variadic ellipsis
        varargTypeName args = some (stmts, strs, s2, p2) →
      (((args.drop 1).any fun a => a.blocking) = true →
        stmts.map Prod.snd =
          (args.filter fun a => !a.isConst).map ArgInfo.trans) ∧
      (((args.drop 1).any fun a => a.blocking) = false → stmts = [])) ∧
    (∀ (self : FuncScope) (parents : List FuncScope) (paramsLen : Nat)
      (variadic ellipsis : Bool) (varargTypeName : Name) (args : List ArgInfo)
      (stmts : List (Name × Name)) (strs : List Name) (s2 : FuncScope)
      (p2 : List FuncScope),
      translateArgs false self parents paramsLen variadic ellipsis
        varargTypeName args = some (stmts, strs, s2, p2) →
      (stmts.map Prod.fst).Nodup) ∧
    ((translateArgs false emptyScope [] 3 false false []
        [⟨[120], false, false⟩, ⟨[121], false, true⟩, ⟨[122], false, false⟩]).map
          (fun r => (r.1, r.2.1)) =
      some ([([95, 97, 114, 103], [120]),
             ([95, 97, 114, 103, 36, 49], [121]),
             ([95, 97, 114, 103, 36, 50], [122])],
            [[95, 97, 114, 103], [95, 97, 114, 103, 36, 49],
             [95, 97, 114, 103, 36, 50]])) := by
  refine ⟨?_, ?_, ?_⟩
  · intro minify self parents pl var ell vtn args stmts strs s2 p2 h
    simp only [translateArgs] at h
    obtain ⟨r, hr, h2⟩ := Option.map_eq_some'.mp h
    have hst : r.1 = stmts := by
      split at h2
      · exact congrArg Prod.fst h2
      · exact congrArg Prod.fst h2
    have result := transArgsLoop_stmts minify _ args hr
    exact ⟨fun hb => hst ▸ result.1 hb, fun hb => hst ▸ result.2 hb⟩
  · intro self parents pl var ell vtn args stmts strs s2 p2 h
    simp only [translateArgs] at h
    obtain ⟨r, hr, h2⟩ := Option.map_eq_some'.mp h
    have hst : r.1 = stmts := by
      split at h2
      · exact congrArg Prod.fst h2
      · exact congrArg Prod.fst h2
    exact hst ▸ (transArgsLoop_temps_nodup _ args hr).1
  · rfl

/-- Three non-constant arguments, the middle one blocking. -/
def c6args : List ArgInfo :=
  [⟨[120], false, false⟩, ⟨[121], false, true⟩, ⟨[122], false, false⟩]

/-- The run of `translateArgs` on `c6args` from a fresh plain-mode scope. -/
def c6run : List (Name × Name) × List Name × FuncScope × List FuncScope :=
  (translateArgs false emptyScope [] 3 false false [] c6args).getD
    ([], [], emptyScope, [])

theorem translateArgs_preserve_order_witness :
    c6run.1.map Prod.snd = (c6args.filter fun a => !a.isConst).map ArgInfo.trans ∧
    (c6run.1.map Prod.fst).Nodup :=
  ⟨(translateArgs_preserve_order.1 false emptyScope [] 3 false false [] c6args
      c6run.1 c6run.2.1 c6run.2.2.1 c6run.2.2.2 rfl).1 (by decide),
   translateArgs_preserve_order.2.1 emptyScope [] 3 false false [] c6args
      c6run.1 c6run.2.1 c6run.2.2.1 c6run.2.2.2 rfl⟩

/-! ### C7: `translateSelection` and the soft error for a bad `js` tag -/

/-- The scan-to-colon of `getJsTag`: length of the prefix free of space,
colon and double quote. -/
def scanIdx (tag : Name) : Nat :=
  (tag.takeWhile fun b => !(b == 32 || b == 58 || b == 34)).length

/-- The quoted-string scan of `getJsTag`: position of the closing quote,
a backslash skipping the following byte; `none` when the scan runs past
the end of the tag. -/
def qIdx : List Nat → Nat → Option Nat
  | [], _ => none
  | b :: r, j =>
    if b = 34 then some j
    else if b = 92 then
      match r with
      | [] => none
      | _ :: r2 => qIdx r2 (j + 2)
    else qIdx r (j + 1)

/-- `strconv.Unquote` (Go standard library) on a double-quoted literal,
modelled for plain contents and the backslash escapes that map one byte to
itself: strip the outer quotes, collapse each backslash pair. -/
def unesc : List Nat → List Nat
  | [] => []
  | 92 :: x :: r => x :: unesc r
  | x :: r => x :: unesc r

/-- Strip the quotes and unescape. -/
def goUnquote (q : Name) : Name := unesc ((q.drop 1).dropLast)

/-- One pass of `getJsTag`'s key/value loop, with fuel (the tag shrinks by
at least one byte per round, so `length + 1` rounds suffice). -/
def gjtAux : Nat → Name → Name
  | 0, _ => []
  | fuel + 1, tag =>
    if tag = [] then []
    else
      let tag1 := tag.dropWhile fun b => b == 32
      if tag1 = [] then []
      else
        let i := scanIdx tag1
        if i + 1 ≥ tag1.length ∨ ¬ tag1.getD i 0 = 58 ∨ ¬ tag1.getD (i + 1) 0 = 34 then
          []
        else
          let name := tag1.take i
          let tag2 := tag1.drop (i + 1)
          match qIdx (tag2.drop 1) 1 with
          | none => []
          | some j =>
            let qvalue := tag2.take (j + 1)
            let tag3 := tag2.drop (j + 1)
            if name = [106, 115] then goUnquote qvalue else gjtAux fuel tag3

/-- `getJsTag`: the unquoted value of the `js:"..."` key of a struct tag. -/
def getJsTag (tag : Name) : Name := gjtAux (tag.length + 1) tag

/-- `t.Field(i)` as a (name, type, tag) triple. -/
def Fields.get? : Fields → Nat → Option (Name × Ty × Name)
  | .nil, _ => none
  | .cons nm t tg _, 0 => some (nm, t, tg)
  | .cons _ _ _ tl, i + 1 => tl.get? i

/-- `t.NumFields()`. -/
def Fields.len : Fields → Nat
  | .nil => 0
  | .cons _ _ _ tl => tl.len + 1

/-- `fieldName`: the blank identifier `_` and reserved keywords are
suffixed with `$<i>`.  The `reservedKeywords` set lives outside this
file's source, so it is a parameter. -/
def fieldName (reserved : Name → Bool) (s : Fields) (i : Nat) : Name :=
  match s.get? i with
  | none => []
  | some (nm, _, _) =>
    if nm = [95] || reserved nm then nm ++ [36] ++ decDigits i else nm

/-- A `types.Error` as appended to `c.p.errList`. -/
structure SelError where
  pos : Nat
  msg : Name
  soft : Bool
deriving DecidableEq, Repr

/-- The message of the bad-tag soft error: `could not find field with type
*js.Object for 'js' tag of field '<name>'`. -/
def jsErrMsg (fnm : Name) : Name :=
  [99, 111, 117, 108, 100, 32, 110, 111, 116, 32, 102, 105, 110, 100, 32,
   102, 105, 101, 108, 100, 32, 119, 105, 116, 104, 32, 116, 121, 112, 101,
   32, 42, 106, 115, 46, 79, 98, 106, 101, 99, 116, 32, 102, 111, 114, 32,
   39, 106, 115, 39, 32, 116, 97, 103, 32, 111, 102, 32, 102, 105, 101,
   108, 100, 32, 39] ++ fnm ++ [39]

/-- `*types.Pointer` dereference on the receiver. -/
def deref : Ty → Ty
  | .pointer e => e
  | t => t

/-- The inner chase of `translateSelection`: follow the first field,
appending its accessor; succeed on a `*js.Object` field, fail when the
(pointer-dereferenced) underlying type is not a struct or has no fields.
Fuel-based, as the Go loop's termination rests on the type tree being
finite. -/
def chase (reserved : Name → Bool) : Nat → Fields → List Name →
    Option (Bool × List Name)
  | 0, _, _ => none
  | f + 1, s, fields =>
    match s.get? 0 with
    | none => none
    | some (_, ft, _) =>
      let fields1 := fields ++ [fieldName reserved s 0]
      if isJsObject ft then some (true, fields1)
      else
        let ft1 := underlying ft
        let ft2 := match ft1 with
          | .pointer e => underlying e
          | _ => ft1
        match ft2 with
        | .struct s2 =>
          if s2.len = 0 then some (false, fields1)
          else chase reserved f s2 fields1
        | _ => some (false, fields1)

/-- One step of the selection walk: dereference, take the underlying
struct (`none` models the Go type-assertion panic on non-structs), and
either follow a `js` tag redirect or append the plain field accessor and
continue through `recurse`. -/
def selStep (reserved : Name → Bool) (fuel pos : Nat)
    (recurse : Ty → List Name → List SelError →
      Option (List Name × Name × List SelError))
    (index : Nat) (t : Ty) (fields : List Name) (errs : List SelError) :
    Option (List Name × Name × List SelError) :=
  match underlying (deref t) with
  | .struct s =>
    match s.get? index with
    | none => none
    | some (fnm, fty, ftag) =>
      if getJsTag ftag ≠ [] then
        match chase reserved fuel s fields with
        | none => none
        | some (true, fields1) => some (fields1, getJsTag ftag, errs)
        | some (false, _) => some ([], [], errs ++ [⟨pos, jsErrMsg fnm, true⟩])
      else
        recurse fty (fields ++ [fieldName reserved s index]) errs
  | _ => none

/-- The walk over `sel.Index()`. -/
def selLoop (reserved : Name → Bool) (fuel pos : Nat) :
    List Nat → Ty → List Name → List SelError →
    Option (List Name × Name × List SelError)
  | [], _, fields, errs => some (fields, [], errs)
  | index :: rest, t, fields, errs =>
    selStep reserved fuel pos (fun ty f e => selLoop reserved fuel pos rest ty f e)
      index t fields errs

/-- `translateSelection`: resolve a selection to its accessor chain and
the `js` tag value, starting from the receiver with no accumulated
accessors. -/
def translateSelection (reserved : Name → Bool) (fuel : Nat) (recv : Ty)
    (idxs : List Nat) (pos : Nat) (errs : List SelError) :
    Option (List Name × Name × List SelError) :=
  selLoop reserved fuel pos idxs recv [] errs

/-- C7: when `translateSelection` follows a `js`-tag redirect and the chase
through first fields never reaches a `*js.Object` field, it appends exactly
one soft, position-tagged error with the bad-tag message and returns the
empty chain and empty tag, without aborting; when such a field is reached it
returns the accumulated accessor chain and the tag value with the error list
untouched; and any completed run leaves the error list unchanged or extends
it by exactly one such soft error, in which case the result is empty. -/
theorem translateSelection_soft_error :
    (∀ (reserved : Name → Bool) (fuel pos index : Nat) (rest : List Nat)
      (t : Ty) (fields : List Name) (errs : List SelError) (s : Fields)
      (fnm : Name) (fty : Ty) (ftag junk0 : Name) (junk : List Name),
      underlying (deref t) = .struct s →
      Fields.get? s index = some (fnm, fty, ftag) →
      getJsTag ftag ≠ [] →
      chase reserved fuel s fields = some (false, junk0 :: junk) →
      selLoop reserved fuel pos (index :: rest) t fields errs =
        some ([], [], errs ++ [⟨pos, jsErrMsg fnm, true⟩])) ∧
    (∀ (reserved : Name → Bool) (fuel pos index : Nat) (rest : List Nat)
      (t : Ty) (fields : List Name) (errs : List SelError) (s : Fields)
      (fnm : Name) (fty : Ty) (ftag : Name) (fields1 : List Name),
      underlying (deref t) = .struct s →
      Fields.get? s index = some (fnm, fty, ftag) →
      getJsTag ftag ≠ [] →
      chase reserved fuel s fields = some (true, fields1) →
      selLoop reserved fuel pos (index :: rest) t fields errs =
        some (fields1, getJsTag ftag, errs)) ∧
    (∀ (reserved : Name → Bool) (fuel : Nat) (recv : Ty) (idxs : List Nat)
      (pos : Nat) (errs : List SelError)
      (r : List Name × Name × List SelError),
      translateSelection reserved fuel recv idxs pos errs = some r →
      r.2.2 = errs ∨
      ∃ fnm, r.2.2 = errs ++ [⟨pos, jsErrMsg fnm, true⟩] ∧
        r.1 = [] ∧ r.2.1 = []) := by
  have step_fail : ∀ (reserved : Name → Bool) (fuel pos index : Nat)
      (recurse : Ty → List Name → List SelError →
        Option (List Name × Name × List SelError))
      (t : Ty) (fields : List Name) (errs : List SelError) (s : Fields)
      (fnm : Name) (fty : Ty) (ftag junk0 : Name) (junk : List Name),
      underlying (deref t) = .struct s →
      Fields.get? s index = some (fnm, fty, ftag) →
      getJsTag ftag ≠ [] →
      chase reserved fuel s fields = some (false, junk0 :: junk) →
      selStep reserved fuel pos recurse index t fields errs =
        some ([], [], errs ++ [⟨pos, jsErrMsg fnm, true⟩]) := by
    intro reserved fuel pos index recurse t fields errs s fnm fty ftag junk0 junk
    intro h1 h2 h3 h4
    unfold selStep
    rw [h1]
    dsimp only
    rw [h2]
    dsimp only
    rw [if_pos h3, h4]
  have step_ok : ∀ (reserved : Name → Bool) (fuel pos index : Nat)
      (recurse : Ty → List Name → List SelError →
        Option (List Name × Name × List SelError))
      (t : Ty) (fields : List Name) (errs : List SelError) (s : Fields)
      (fnm : Name) (fty : Ty) (ftag : Name) (fields1 : List Name),
      underlying (deref t) = .struct s →
      Fields.get? s index = some (fnm, fty, ftag) →
      getJsTag ftag ≠ [] →
      chase reserved fuel s fields = some (true, fields1) →
      selStep reserved fuel pos recurse index t fields errs =
        some (fields1, getJsTag ftag, errs) := by
    intro reserved fuel pos index recurse t fields errs s fnm fty ftag fields1
    intro h1 h2 h3 h4
    unfold selStep
    rw [h1]
    dsimp only
    rw [h2]
    dsimp only
    rw [if_pos h3, h4]
  refine ⟨?_, ?_, ?_⟩
  · intro reserved fuel pos index rest t fields errs s fnm fty ftag junk0 junk
    intro h1 h2 h3 h4
    rw [show selLoop reserved fuel pos (index :: rest) t fields errs =
      selStep reserved fuel pos
        (fun ty f e => selLoop reserved fuel pos rest ty f e)
        index t fields errs from rfl]
    exact step_fail reserved fuel pos index _ t fields errs s fnm fty ftag
      junk0 junk h1 h2 h3 h4
  · intro reserved fuel pos index rest t fields errs s fnm fty ftag fields1
    intro h1 h2 h3 h4
    rw [show selLoop reserved fuel pos (index :: rest) t fields errs =
      selStep reserved fuel pos
        (fun ty f e => selLoop reserved fuel pos rest ty f e)
        index t fields errs from rfl]
    exact step_ok reserved fuel pos index _ t fields errs s fnm fty ftag
      fields1 h1 h2 h3 h4
  · intro reserved fuel recv idxs pos errs r h
    rw [translateSelection] at h
    have loop_disc : ∀ (idxs : List Nat) (t : Ty) (fields : List Name)
        (errs : List SelError) (r : List Name × Name × List SelError),
        selLoop reserved fuel pos idxs t fields errs = some r →
        r.2.2 = errs ∨ ∃ fnm, r.2.2 = errs ++ [⟨pos, jsErrMsg fnm, true⟩] ∧
          r.1 = [] ∧ r.2.1 = [] := by
      intro idxs
      induction idxs with
      | nil =>
        intro t fields errs r h
        rw [show selLoop reserved fuel pos [] t fields errs =
          some (fields, [], errs) from rfl] at h
        simp only [Option.some.injEq] at h
        exact Or.inl (by rw [← h])
      | cons index rest ih =>
        intro t fields errs r h
        rw [show selLoop reserved fuel pos (index :: rest) t fields errs =
          selStep reserved fuel pos
            (fun ty f e => selLoop reserved fuel pos rest ty f e)
            index t fields errs from rfl] at h
        unfold selStep at h
        cases hu : underlying (deref t) with
        | struct s =>
          rw [hu] at h
          dsimp only at h
          cases hg : Fields.get? s index with
          | none => rw [hg] at h; exact Option.noConfusion h
          | some trip =>
            obtain ⟨fnm, fty, ftag⟩ := trip
            rw [hg] at h
            dsimp only at h
            by_cases hj : getJsTag ftag ≠ []
            · rw [if_pos hj] at h
              cases hch : chase reserved fuel s fields with
              | none => rw [hch] at h; exact Option.noConfusion h
              | some br =>
                obtain ⟨b, flds⟩ := br
                rw [hch] at h
                cases b with
                | true =>
                  dsimp only at h
                  simp only [Option.some.injEq] at h
                  exact Or.inl (by rw [← h])
                | false =>
                  dsimp only at h
                  simp only [Option.some.injEq] at h
                  exact Or.inr ⟨fnm, by rw [← h], by rw [← h], by rw [← h]⟩
            · rw [if_neg hj] at h
              exact ih fty (fields ++ [fieldName reserved s index]) errs r h
        | basic k => rw [hu] at h; exact Option.noConfusion h
        | named o u => rw [hu] at h; exact Option.noConfusion h
        | array n e => rw [hu] at h; exact Option.noConfusion h
        | slice e => rw [hu] at h; exact Option.noConfusion h
        | map k v => rw [hu] at h; exact Option.noConfusion h
        | interface ms => rw [hu] at h; exact Option.noConfusion h
        | signature ps rs v => rw [hu] at h; exact Option.noConfusion h
        | pointer e => rw [hu] at h; exact Option.noConfusion h
        | chan e => rw [hu] at h; exact Option.noConfusion h
    exact loop_disc idxs recv [] errs r h

/-- The struct whose only field has a `js:"foo"` tag but type `int`:
the chase cannot reach `*js.Object`. -/
def c7sFail : Fields :=
  .cons [97] (.basic .int) [106, 115, 58, 34, 102, 111, 111, 34] .nil

/-- The struct whose only field has a `js:"foo"` tag and type
`*js.Object`. -/
def c7sOk : Fields :=
  .cons [98] (.pointer (.named ⟨0, [79, 98, 106, 101, 99, 116], false, [],
    false, true, false, false⟩ (.basic .int)))
    [106, 115, 58, 34, 102, 111, 111, 34] .nil

theorem translateSelection_soft_error_witness :
    selLoop (fun _ => false) 10 7 [0] (.struct c7sFail) [] [] =
      some ([], [], [⟨7, jsErrMsg [97], true⟩]) ∧
    selLoop (fun _ => false) 10 7 [0] (.struct c7sOk) [] [] =
      some ([[98]], [102, 111, 111], []) :=
  ⟨translateSelection_soft_error.1 (fun _ => false) 10 7 0 [] (.struct c7sFail)
      [] [] c7sFail [97] (.basic .int) [106, 115, 58, 34, 102, 111, 111, 34]
      [97] [] rfl rfl (by decide) rfl,
   translateSelection_soft_error.2.1 (fun _ => false) 10 7 0 [] (.struct c7sOk)
      [] [] c7sOk [98]
      (.pointer (.named ⟨0, [79, 98, 106, 101, 99, 116], false, [],
        false, true, false, false⟩ (.basic .int)))
      [106, 115, 58, 34, 102, 111, 111, 34] [[98]] rfl rfl (by decide) rfl⟩

end GopherJS
